import Mathlib

/-!
Verification of the normalization and comparison core of `analysis.py`.

The repository benchmarks three speech-transcription providers.  Its core is
`normalize_data` (mapping each provider JSON shape onto a common record),
`get_similarity` (a difflib `SequenceMatcher.ratio` comparison of two
transcripts) and the batch loop that folds normalized records into one
comparison row per audio identifier.

The embedding below models Python JSON values as the inductive type `JVal`
(numbers as rationals; Python floats and ints are modelled exactly, and bools
are identified with the numbers 0 and 1 exactly as Python arithmetic and set
membership identify them).  Fallible Python operations (attribute errors,
index errors, type errors) are modelled in the `Except String` monad; the
broad `except Exception` handler of `normalize_data` turns any such error
into `none`.
-/

/-- A JSON-like Python value: None, a number, a string, a list or a dict. -/
inductive JVal where
  | null : JVal
  | num  : ℚ → JVal
  | str  : String → JVal
  | arr  : List JVal → JVal
  | obj  : List (String × JVal) → JVal

/-- A hashable Python scalar, as storable in a Python `set`.  Lists and dicts
are unhashable: inserting them into a set raises `TypeError`. -/
inductive JScalar where
  | null : JScalar
  | num  : ℚ → JScalar
  | str  : String → JScalar
  deriving DecidableEq

/-- Whether a value is Python `None`. -/
def JVal.isNull : JVal → Bool
  | .null => true
  | _ => false

/-- Python truthiness of a JSON value: `None`, `0`, `""`, `[]` and `{}` are
falsy, everything else is truthy. -/
def pyTruthy : JVal → Bool
  | .null => false
  | .num q => decide (q ≠ 0)
  | .str s => decide (s ≠ "")
  | .arr xs => !xs.isEmpty
  | .obj fs => !fs.isEmpty

/-- First binding of a key in a dict (dict keys are unique, so first match). -/
def lookupField : List (String × JVal) → String → Option JVal
  | [], _ => none
  | (k, v) :: fs, key => if k = key then some v else lookupField fs key

/-- Whether a dict carries a key. -/
def hasField : List (String × JVal) → String → Bool
  | [], _ => false
  | (k, _) :: fs, key => k == key || hasField fs key

/-- Python `d.get(key, dflt)`: returns the stored value (even `None`) when the
key is present, the default otherwise; raises `AttributeError` when the
receiver is not a dict. -/
def pyGetD (d : JVal) (key : String) (dflt : JVal) : Except String JVal :=
  match d with
  | .obj fs => .ok ((lookupField fs key).getD dflt)
  | _ => .error "AttributeError"

/-- Python `d.get(key)` with its implicit `None` default. -/
def pyGetNone (d : JVal) (key : String) : Except String JVal :=
  match d with
  | .obj fs => .ok ((lookupField fs key).getD .null)
  | _ => .error "AttributeError"

/-- Python `key in w` for a string key: key containment for dicts, membership
for lists (a string equals only an equal string), substring test for strings;
numbers and `None` are not containers and raise `TypeError`. -/
def pyHasKeyish (key : String) : JVal → Except String Bool
  | .obj fs => .ok (hasField fs key)
  | .arr xs => .ok (xs.any fun v => match v with | .str s => s == key | _ => false)
  | .str s => .ok (decide (List.IsInfix key.toList s.toList))
  | _ => .error "TypeError"

/-- Python `xs[0]`: head of a list, first character of a string; raises
`IndexError` when empty, `KeyError` for dicts (whose keys here are strings,
never the integer 0) and `TypeError` otherwise. -/
def pyIndexFirst : JVal → Except String JVal
  | .arr [] => .error "IndexError"
  | .arr (v :: _) => .ok v
  | .str s =>
    match s.toList with
    | [] => .error "IndexError"
    | c :: _ => .ok (.str (String.mk [c]))
  | .obj _ => .error "KeyError"
  | _ => .error "TypeError"

/-- Python `xs[-1]`: last element of a list or string, as `pyIndexFirst`. -/
def pyIndexLast : JVal → Except String JVal
  | .arr xs =>
    match xs.getLast? with
    | none => .error "IndexError"
    | some v => .ok v
  | .str s =>
    match s.toList.getLast? with
    | none => .error "IndexError"
    | some c => .ok (.str (String.mk [c]))
  | .obj _ => .error "KeyError"
  | _ => .error "TypeError"

/-- Python iteration `for w in words`: elements of a list, characters of a
string; numbers and `None` are not iterable (dicts never reach iteration in
the source: indexing them with 0 has already raised). -/
def pyElems : JVal → Except String (List JVal)
  | .arr xs => .ok xs
  | .str s => .ok (s.toList.map fun c => .str (String.mk [c]))
  | _ => .error "TypeError"

/-- Python `len`: length of a list, string or dict; `TypeError` otherwise. -/
def pyLen : JVal → Except String ℕ
  | .arr xs => .ok xs.length
  | .str s => .ok s.length
  | .obj fs => .ok fs.length
  | _ => .error "TypeError"

/-- Extract a number; Python arithmetic on any other value raises
`TypeError` (bools, which Python treats as 0 and 1, are modelled as those
numbers). -/
def pyNum : JVal → Except String ℚ
  | .num q => .ok q
  | _ => .error "TypeError"

/-- Insert a value into a Python set, modelled as a duplicate-free list. -/
def setInsert (acc : List JScalar) (s : JScalar) : List JScalar :=
  if s ∈ acc then acc else acc ++ [s]

/-- A value being added to a Python set must be hashable. -/
def pyHashable : JVal → Except String JScalar
  | .null => .ok .null
  | .num q => .ok (.num q)
  | .str s => .ok (.str s)
  | .arr _ => .error "TypeError"
  | .obj _ => .error "TypeError"

/-- Line 61 of analysis.py, the Deepgram speaker set:
`set(w.get("speaker") for w in words if "speaker" in w)`.  Note that a word
whose speaker key holds `None` contributes `None` to the set. -/
def dgSpeakersAux : List JVal → List JScalar → Except String (List JScalar)
  | [], acc => .ok acc
  | w :: ws, acc => do
    let b ← pyHasKeyish "speaker" w
    if b then do
      let v ← pyGetNone w "speaker"
      let s ← pyHashable v
      dgSpeakersAux ws (setInsert acc s)
    else dgSpeakersAux ws acc

/-- Line 74 of analysis.py, the AssemblyAI speaker set:
`set(w.get("speaker") for w in words if w.get("speaker") is not None)`. -/
def aaiSpeakersAux : List JVal → List JScalar → Except String (List JScalar)
  | [], acc => .ok acc
  | w :: ws, acc => do
    let v ← pyGetNone w "speaker"
    if v.isNull then aaiSpeakersAux ws acc
    else do
      let s ← pyHashable v
      aaiSpeakersAux ws (setInsert acc s)

/-- The keyed Deepgram speaker values in word order, without the set
(specification-side description of line 61: every `w["speaker"]` for words
carrying the key, nulls included). -/
def dgSpeakerValues : List JVal → Except String (List JScalar)
  | [] => .ok []
  | w :: ws => do
    let b ← pyHasKeyish "speaker" w
    if b then do
      let v ← pyGetNone w "speaker"
      let s ← pyHashable v
      let rest ← dgSpeakerValues ws
      pure (s :: rest)
    else dgSpeakerValues ws

/-- The non-null AssemblyAI speaker values in word order, without the set
(specification-side description of line 74). -/
def aaiSpeakerValues : List JVal → Except String (List JScalar)
  | [] => .ok []
  | w :: ws => do
    let v ← pyGetNone w "speaker"
    if v.isNull then aaiSpeakerValues ws
    else do
      let s ← pyHashable v
      let rest ← aaiSpeakerValues ws
      pure (s :: rest)

/-- The per-word confidence list `[w.get("confidence", dflt) for w in ws]`;
`statistics.mean` later demands numbers, which is checked here. -/
def confList (dflt : ℚ) : List JVal → Except String (List ℚ)
  | [] => .ok []
  | w :: ws => do
    let v ← pyGetD w "confidence" (.num dflt)
    let q ← pyNum v
    let rest ← confList dflt ws
    pure (q :: rest)

/-- Python `statistics.mean`: exact rational mean (the Python implementation
computes with exact fractions); raises `StatisticsError` on an empty list. -/
def pyMean (l : List ℚ) : Except String ℚ :=
  if l = [] then .error "StatisticsError" else .ok (l.sum / (l.length : ℚ))

/-- The three providers of the harness. -/
inductive Provider where
  | OpenAI : Provider
  | Deepgram : Provider
  | AssemblyAI : Provider
  deriving DecidableEq

/-- The canonical record produced by `normalize_data` (the dict `norm` of
analysis.py).  A successful run forces `start`, `end`, `duration`,
`confidence`, `speakers` and `word_count` to be numbers: the duration
subtraction of line 80, the mean of lines 50, 64 and 77 and the `len` of
line 79 raise on anything else, and the except handler then returns `None`.
The transcript `text` is stored unchecked, as in the source. -/
structure NormalizedTranscript where
  text : JVal
  start : ℚ
  end_ : ℚ
  duration : ℚ
  confidence : ℚ
  speakers : ℕ
  word_count : ℕ

/-- Line 55 of analysis.py:
`data.get("results", {}).get("channels", [{}])[0].get("alternatives", [{}])[0]`. -/
def dgAlt (data : JVal) : Except String JVal := do
  let res ← pyGetD data "results" (.obj [])
  let chs ← pyGetD res "channels" (.arr [.obj []])
  let c0 ← pyIndexFirst chs
  let alts ← pyGetD c0 "alternatives" (.arr [.obj []])
  pyIndexFirst alts

/-- The `if words:` block of the OpenAI branch (lines 42 to 50 of
analysis.py): start and end from the first and last word, confidence the
mean of per-word confidences (default 1.0) times 100, or 0 when the
comprehension is empty; all defaults 0 when `words` is falsy. -/
def openaiSec (words : JVal) : Except String (ℚ × ℚ × ℚ) :=
  if pyTruthy words then do
    let w0 ← pyIndexFirst words
    let wl ← pyIndexLast words
    let s ← pyNum (← pyGetD w0 "start" (.num 0))
    let e ← pyNum (← pyGetD wl "end" (.num 0))
    let ws ← pyElems words
    let confs ← confList 1 ws
    pure (s, e, if confs = [] then 0 else confs.sum / (confs.length : ℚ) * 100)
  else pure ((0 : ℚ), (0 : ℚ), (0 : ℚ))

/-- The `if words:` block of the Deepgram branch (lines 58 to 64): start and
end from the first and last word, the speaker set of line 61, confidence the
unconditional mean of per-word confidences (default 0) times 100. -/
def dgSec (words : JVal) : Except String (ℚ × ℚ × ℕ × ℚ) :=
  if pyTruthy words then do
    let w0 ← pyIndexFirst words
    let wl ← pyIndexLast words
    let s ← pyNum (← pyGetD w0 "start" (.num 0))
    let e ← pyNum (← pyGetD wl "end" (.num 0))
    let ws ← pyElems words
    let speakers ← dgSpeakersAux ws []
    let confs ← confList 0 ws
    let m ← pyMean confs
    pure (s, e, if speakers = [] then 1 else speakers.length, m * 100)
  else pure ((0 : ℚ), (0 : ℚ), (0 : ℕ), (0 : ℚ))

/-- The `if words:` block of the AssemblyAI branch (lines 70 to 77): as the
Deepgram block, but timestamps divided by 1000 (milliseconds to seconds) and
the speaker set of line 74. -/
def aaiSec (words : JVal) : Except String (ℚ × ℚ × ℕ × ℚ) :=
  if pyTruthy words then do
    let w0 ← pyIndexFirst words
    let wl ← pyIndexLast words
    let s ← pyNum (← pyGetD w0 "start" (.num 0))
    let e ← pyNum (← pyGetD wl "end" (.num 0))
    let ws ← pyElems words
    let speakers ← aaiSpeakersAux ws []
    let confs ← confList 0 ws
    let m ← pyMean confs
    pure (s / 1000, e / 1000, if speakers = [] then 1 else speakers.length, m * 100)
  else pure ((0 : ℚ), (0 : ℚ), (0 : ℕ), (0 : ℚ))

/-- The body of the `try` block of `normalize_data` (lines 37 to 80 of
analysis.py), one branch per provider, followed by the shared word count and
duration assignments. -/
def extract (data : JVal) : Provider → Except String NormalizedTranscript
  | .OpenAI => do
    let text ← pyGetD data "text" (.str "")
    let words ← pyGetD data "words" (.arr [])
    let sec ← openaiSec words
    let wc ← pyLen words
    pure { text := text, start := sec.1, end_ := sec.2.1, duration := sec.2.1 - sec.1,
           confidence := sec.2.2, speakers := 1, word_count := wc }
  | .Deepgram => do
    let alt ← dgAlt data
    let text ← pyGetD alt "transcript" (.str "")
    let words ← pyGetD alt "words" (.arr [])
    let sec ← dgSec words
    let wc ← pyLen words
    pure { text := text, start := sec.1, end_ := sec.2.1, duration := sec.2.1 - sec.1,
           confidence := sec.2.2.2, speakers := sec.2.2.1, word_count := wc }
  | .AssemblyAI => do
    let text ← pyGetD data "text" (.str "")
    let words ← pyGetD data "words" (.arr [])
    let sec ← aaiSec words
    let wc ← pyLen words
    pure { text := text, start := sec.1, end_ := sec.2.1, duration := sec.2.1 - sec.1,
           confidence := sec.2.2.2, speakers := sec.2.2.1, word_count := wc }

/-- `normalize_data(data, provider)` of analysis.py.  The argument is the
result of `load_json` (`None` on a missing or unreadable file, a parsed JSON
value otherwise).  Line 24 returns `None` for any falsy input; the
`except Exception` handler of lines 82 to 84 logs and returns `None` on any
extraction error, so the caller only ever sees `none` or a full record. -/
def normalize_data : Option JVal → Provider → Option NormalizedTranscript
  | none, _ => none
  | some d, p => if pyTruthy d then (extract d p).toOption else none

/-- The word list a provider response carries, as the source reads it
(top-level `words` for OpenAI and AssemblyAI, `alt["words"]` for Deepgram);
`.ok` exactly when that value is an actual list. -/
def wordsOf (d : JVal) : Provider → Except String (List JVal)
  | .OpenAI => do
    let w ← pyGetD d "words" (.arr [])
    match w with
    | .arr xs => pure xs
    | _ => .error "TypeError"
  | .Deepgram => do
    let alt ← dgAlt d
    let w ← pyGetD alt "words" (.arr [])
    match w with
    | .arr xs => pure xs
    | _ => .error "TypeError"
  | .AssemblyAI => do
    let w ← pyGetD d "words" (.arr [])
    match w with
    | .arr xs => pure xs
    | _ => .error "TypeError"

/-- Timestamp unit per provider: AssemblyAI reports milliseconds, which line
72 divides by 1000; the others report seconds. -/
def scaleOf : Provider → ℚ
  | .AssemblyAI => 1000
  | _ => 1

/-- Default per-word confidence when the key is missing: 1.0 for OpenAI
(line 46), 0 for Deepgram and AssemblyAI (lines 63 and 76). -/
def confDefault : Provider → ℚ
  | .OpenAI => 1
  | _ => 0

/-!
The `difflib.SequenceMatcher` character comparison used by `get_similarity`
(line 90 of analysis.py), with `isjunk=None` and the default `autojunk=True`.

With no junk predicate the junk set `bjunk` is empty, so the two
junk-extension loops of `find_longest_match` never fire and the two non-junk
extension loops extend through arbitrary equal characters.  Autojunk only
purges popular characters (appearing more than `len(b) // 100 + 1` times in
a `b` of length at least 200) from the index `b2j`, which restricts the main
search, not the extensions.
-/

/-- A character of `b` that autojunk removes from the search index `b2j`. -/
def popularChar (b : List Char) (c : Char) : Bool :=
  decide (200 ≤ b.length) && decide (b.length / 100 + 1 < b.count c)

/-- Length of the matching run starting at `a[i]` and `b[j]`, restricted to
positions below `ahi` and `bhi` and to non-popular characters of `b`: the
value `j2len` chains accumulate in the main loop of `find_longest_match`.
The fuel argument is structural recursion bookkeeping; callers pass at least
`ahi - i`, so the run is never truncated. -/
def runLenF (a b : List Char) (pop : Char → Bool) (ahi bhi : ℕ) :
    ℕ → ℕ → ℕ → ℕ
  | 0, _, _ => 0
  | fuel + 1, i, j =>
    if i < ahi ∧ j < bhi then
      match a[i]?, b[j]? with
      | some x, some y =>
        if x = y ∧ pop y = false then runLenF a b pop ahi bhi fuel (i + 1) (j + 1) + 1
        else 0
      | _, _ => 0
    else 0

/-- One row `i` of the main loop of `find_longest_match`: scan the `j`
candidates in increasing order and record a strictly longer match when one
appears, so the final state is the first maximal match in (i, j) order. -/
def bestInRow (a b : List Char) (pop : Char → Bool) (ahi bhi i : ℕ) :
    List ℕ → ℕ × ℕ × ℕ → ℕ × ℕ × ℕ
  | [], st => st
  | j :: js, st =>
    let k := runLenF a b pop ahi bhi ahi i j
    bestInRow a b pop ahi bhi i js (if st.2.2 < k then (i, j, k) else st)

/-- The rows `i = alo, ..., ahi - 1` of the main loop of
`find_longest_match`. -/
def bestSearch (a b : List Char) (pop : Char → Bool) (ahi bhi blo bw : ℕ) :
    List ℕ → ℕ × ℕ × ℕ → ℕ × ℕ × ℕ
  | [], st => st
  | i :: is, st =>
    bestSearch a b pop ahi bhi blo bw is
      (bestInRow a b pop ahi bhi i (List.range' blo bw) st)

/-- The junk-free best match of the main loop: of all maximal matching
blocks avoiding popular characters of `b`, the one starting earliest in `a`
and then earliest in `b`; `(alo, blo, 0)` when nothing matches. -/
def bestMatch (a b : List Char) (alo ahi blo bhi : ℕ) : ℕ × ℕ × ℕ :=
  bestSearch a b (popularChar b) ahi bhi blo (bhi - blo)
    (List.range' alo (ahi - alo)) (alo, blo, 0)

/-- The first extension loop of `find_longest_match`: widen the block
leftwards while the preceding characters are equal (`bjunk` is empty, so the
junk test of the source always passes). -/
def extendLeftF (a b : List Char) (alo blo : ℕ) :
    ℕ → ℕ × ℕ × ℕ → ℕ × ℕ × ℕ
  | 0, st => st
  | fuel + 1, (i, j, k) =>
    if alo < i ∧ blo < j then
      match a[i - 1]?, b[j - 1]? with
      | some x, some y =>
        if x = y then extendLeftF a b alo blo fuel (i - 1, j - 1, k + 1) else (i, j, k)
      | _, _ => (i, j, k)
    else (i, j, k)

/-- The second extension loop of `find_longest_match`: widen the block
rightwards while the following characters are equal. -/
def extendRightF (a b : List Char) (ahi bhi : ℕ) :
    ℕ → ℕ × ℕ × ℕ → ℕ × ℕ × ℕ
  | 0, st => st
  | fuel + 1, (i, j, k) =>
    if i + k < ahi ∧ j + k < bhi then
      match a[i + k]?, b[j + k]? with
      | some x, some y =>
        if x = y then extendRightF a b ahi bhi fuel (i, j, k + 1) else (i, j, k)
      | _, _ => (i, j, k)
    else (i, j, k)

/-- `find_longest_match(alo, ahi, blo, bhi)` for `isjunk=None`: the best
junk-free match of the main loop, extended on both sides by equal
characters.  The two final junk-extension loops of the source are no-ops
because the junk set is empty. -/
def findLongestMatch (a b : List Char) (alo ahi blo bhi : ℕ) : ℕ × ℕ × ℕ :=
  extendRightF a b ahi bhi (a.length + b.length)
    (extendLeftF a b alo blo (a.length + b.length)
      (bestMatch a b alo ahi blo bhi))

/-- Total size of the matching blocks of `get_matching_blocks`: recursively
split around the longest match.  The queue order and the final collapsing of
adjacent blocks in the source do not change the total.  Each split strictly
shrinks `(ahi - alo) + (bhi - blo)`, so that sum is enough fuel. -/
def matchTotalF (a b : List Char) : ℕ → ℕ → ℕ → ℕ → ℕ → ℕ
  | 0, _, _, _, _ => 0
  | fuel + 1, alo, ahi, blo, bhi =>
    let m := findLongestMatch a b alo ahi blo bhi
    if m.2.2 = 0 then 0
    else
      matchTotalF a b fuel alo m.1 blo m.2.1 + m.2.2 +
        matchTotalF a b fuel (m.1 + m.2.2) ahi (m.2.1 + m.2.2) bhi

/-- The number `M` of matched characters between two strings. -/
def matchTotal (a b : List Char) : ℕ :=
  matchTotalF a b (a.length + b.length) 0 a.length 0 b.length

/-- `SequenceMatcher(None, s1, s2).ratio()`: `2 * M / T` where `T` is the
total length, and 1 when both strings are empty (`_calculate_ratio`). -/
def ratioQ (s1 s2 : String) : ℚ :=
  if s1.toList.length + s2.toList.length = 0 then 1
  else 2 * (matchTotal s1.toList s2.toList : ℚ) /
    ((s1.toList.length : ℚ) + (s2.toList.length : ℚ))

/-- `get_similarity(text1, text2)` of analysis.py, at optional-string
arguments as the contract describes them: `0.0` when either argument is
`None` or empty (falsy), the sequence-matcher ratio otherwise. -/
def get_similarity : Option String → Option String → ℚ
  | some t1, some t2 => if t1 = "" ∨ t2 = "" then 0 else ratioQ t1 t2
  | _, _ => 0

/-- `get_similarity` as called on the `text` field of a normalized record,
which is an arbitrary JSON value: the falsy guard still returns `0.0`, two
truthy strings are compared, and any other truthy value makes the
`SequenceMatcher` call raise (uncaught in the source). -/
def get_similarityJV (t1 t2 : JVal) : Except String ℚ :=
  if pyTruthy t1 = false ∨ pyTruthy t2 = false then .ok 0
  else
    match t1, t2 with
    | .str s1, .str s2 => .ok (ratioQ s1 s2)
    | _, _ => .error "TypeError"

/-!
The batch loop of analysis.py (lines 114 to 160): one `ComparisonRow` per
audio identifier, and the console summary (lines 169 and 170).
-/

/-- Round a rational to the nearest integer, ties to even: the behaviour of
Python `round` (the source rounds exact halves like 0.5 the same way; binary
floating point representation error of the inputs is not modelled). -/
def roundHalfEven (q : ℚ) : ℤ :=
  let f := ⌊q⌋
  let r := q - (f : ℚ)
  if r < 1 / 2 then f
  else if 1 / 2 < r then f + 1
  else if Even f then f else f + 1

/-- Python `round(q, 2)`. -/
def round2 (q : ℚ) : ℚ := (roundHalfEven (q * 100) : ℚ) / 100

/-- Python `round(q, 3)`. -/
def round3 (q : ℚ) : ℚ := (roundHalfEven (q * 1000) : ℚ) / 1000

/-- One row of the output table (lines 129 to 158 of analysis.py): word
counts and confidences per provider, three pairwise similarity percentages,
two pairwise start-time deltas (absent when either side is missing) and the
Deepgram and AssemblyAI speaker counts.  The table has no OpenAI speaker
column. -/
structure ComparisonRow where
  Audio_ID : String
  OAI_Words : ℕ
  DG_Words : ℕ
  AAI_Words : ℕ
  OAI_Conf : ℚ
  DG_Conf : ℚ
  AAI_Conf : ℚ
  Sim_OAI_vs_DG : ℚ
  Sim_OAI_vs_AAI : ℚ
  Sim_DG_vs_AAI : ℚ
  Start_Diff_OAI_DG : Option ℚ
  Start_Diff_DG_AAI : Option ℚ
  DG_Speakers : ℕ
  AAI_Speakers : ℕ

/-- One pairwise similarity cell (lines 142 to 144): present pair compared
through `get_similarity` and scaled to a rounded percentage, 0 when either
side is missing. -/
def simCell (x y : Option NormalizedTranscript) : Except String ℚ :=
  match x, y with
  | some o, some g => do
    let r ← get_similarityJV o.text g.text
    pure (round2 (r * 100))
  | _, _ => pure 0

/-- Build the row for one audio identifier from the three normalization
results (lines 129 to 158).  A missing transcript degrades its fields to 0
or `None`; the only fallible steps are the unguarded similarity calls
between two present transcripts. -/
def buildRow (audio_id : String)
    (d_oai d_dg d_aai : Option NormalizedTranscript) :
    Except String ComparisonRow := do
  let sim_od ← simCell d_oai d_dg
  let sim_oa ← simCell d_oai d_aai
  let sim_da ← simCell d_dg d_aai
  pure
    { Audio_ID := audio_id
      OAI_Words := match d_oai with | some o => o.word_count | none => 0
      DG_Words := match d_dg with | some g => g.word_count | none => 0
      AAI_Words := match d_aai with | some g => g.word_count | none => 0
      OAI_Conf := match d_oai with | some o => round2 o.confidence | none => 0
      DG_Conf := match d_dg with | some g => round2 g.confidence | none => 0
      AAI_Conf := match d_aai with | some g => round2 g.confidence | none => 0
      Sim_OAI_vs_DG := sim_od
      Sim_OAI_vs_AAI := sim_oa
      Sim_DG_vs_AAI := sim_da
      Start_Diff_OAI_DG :=
        match d_oai, d_dg with
        | some o, some g => some (round3 |o.start - g.start|)
        | _, _ => none
      Start_Diff_DG_AAI :=
        match d_dg, d_aai with
        | some o, some g => some (round3 |o.start - g.start|)
        | _, _ => none
      DG_Speakers := match d_dg with | some g => g.speakers | none => 0
      AAI_Speakers := match d_aai with | some g => g.speakers | none => 0 }

/-- Process one audio identifier: load and normalize each provider file
(lines 125 to 127; `loads` models `load_json` composed with the file lookup,
returning `none` for a missing or unreadable file) and build the row. -/
def processId (audio_id : String) (loads : Provider → Option JVal) :
    Except String ComparisonRow :=
  buildRow audio_id
    (normalize_data (loads .OpenAI) .OpenAI)
    (normalize_data (loads .Deepgram) .Deepgram)
    (normalize_data (loads .AssemblyAI) .AssemblyAI)

/-- The batch loop over the sorted identifiers (line 114): rows are appended
one per identifier; an uncaught error (only possible in a similarity call)
aborts the whole loop, which `Except` short-circuiting models. -/
def allRows (ids : List String) (loads : String → Provider → Option JVal) :
    Except String (List ComparisonRow) :=
  ids.mapM fun audio_id => processId audio_id (loads audio_id)

/-- Mean of an all-numeric pandas column over every row; `none` models the
NaN mean of an empty table. -/
def colMeanQ (xs : List ℚ) : Option ℚ :=
  if xs.length = 0 then none else some (xs.sum / (xs.length : ℚ))

/-- Mean of a nullable pandas column: pandas `.mean()` skips missing values
(`None` becomes NaN and is excluded from both sum and count). -/
def colMeanOpt (xs : List (Option ℚ)) : Option ℚ :=
  let v := xs.filterMap id
  if v.length = 0 then none else some (v.sum / (v.length : ℚ))

/-- The console summary of lines 169 and 170: the mean of the
`Sim_DG_vs_AAI` column and the mean of the `Start_Diff_DG_AAI` column of
the output table. -/
def printedSummary (rows : List ComparisonRow) : Option ℚ × Option ℚ :=
  (colMeanQ (rows.map ComparisonRow.Sim_DG_vs_AAI),
   colMeanOpt (rows.map ComparisonRow.Start_Diff_DG_AAI))

/-!
Concrete provider responses used to instantiate the theorems below.
-/

/-- A Deepgram response whose two words carry the speaker values `null` and
`0`: line 61 keeps the null, so the speaker set has two elements. -/
def dgNullZero : JVal :=
  .obj [("results", .obj [("channels", .arr [.obj [("alternatives", .arr
    [.obj [("transcript", .str "hi"),
           ("words", .arr
             [.obj [("speaker", .null), ("start", .num 0), ("end", .num 1),
                    ("confidence", .num 1)],
              .obj [("speaker", .num 0), ("start", .num 1), ("end", .num 2),
                    ("confidence", .num 1)]])]])]])])]

/-- A minimal OpenAI response with one word. -/
def oaiOneWord : JVal :=
  .obj [("text", .str "hello"),
        ("words", .arr [.obj [("start", .num 1), ("end", .num 2),
                              ("confidence", .num 1)]])]

/-- An OpenAI response whose single word has disordered timestamps, giving a
negative duration. -/
def oaiDisordered : JVal :=
  .obj [("text", .str "x"),
        ("words", .arr [.obj [("start", .num 5), ("end", .num 1),
                              ("confidence", .num 1)]])]

/-- An OpenAI response with word confidences 0.5, 0.7 and 0.9. -/
def oaiConfs : JVal :=
  .obj [("text", .str "x"),
        ("words", .arr
          [.obj [("start", .num 0), ("end", .num 1), ("confidence", .num (1/2))],
           .obj [("start", .num 1), ("end", .num 2), ("confidence", .num (7/10))],
           .obj [("start", .num 2), ("end", .num 3), ("confidence", .num (9/10))]])]

/-- The AssemblyAI response of the specification example: one word with
millisecond timestamps 1000 and 2000 and confidence 0.9. -/
def aaiMillis : JVal :=
  .obj [("text", .str "ok"),
        ("words", .arr [.obj [("start", .num 1000), ("end", .num 2000),
                              ("confidence", .num (9/10))]])]

/-!
Helper lemmas.
-/

lemma bind_ok {α β : Type} (x : Except String α) (f : α → Except String β) (c : β) :
    (x >>= f) = .ok c ↔ ∃ b, x = .ok b ∧ f b = .ok c := by
  cases x <;> simp [Bind.bind, Except.bind]

lemma pure_ok {α : Type} (b c : α) :
    (pure b : Except String α) = .ok c ↔ b = c := by
  simp [Pure.pure, Except.pure]

lemma runLenF_le (a b : List Char) (pop : Char → Bool) (ahi bhi : ℕ) :
    ∀ fuel i j, runLenF a b pop ahi bhi fuel i j ≤ ahi - i ∧
      runLenF a b pop ahi bhi fuel i j ≤ bhi - j := by
  intro fuel
  induction fuel with
  | zero => intro i j; simp [runLenF]
  | succ f ih =>
    intro i j
    simp only [runLenF]
    split <;> try omega
    split <;> try omega
    split <;> try omega
    have := ih (i + 1) (j + 1)
    omega

lemma runLenF_succ_eq (a b : List Char) (pop : Char → Bool) (ahi bhi f i j : ℕ)
    (x : Char) (h1 : i < ahi) (h2 : j < bhi)
    (ha : a[i]? = some x) (hb : b[j]? = some x) (hp : pop x = false) :
    runLenF a b pop ahi bhi (f + 1) i j =
      runLenF a b pop ahi bhi f (i + 1) (j + 1) + 1 := by
  simp only [runLenF, if_pos (And.intro h1 h2), ha, hb]
  simp [hp]

lemma runLenF_succ_ne_zero (a b : List Char) (pop : Char → Bool) (ahi bhi f i j : ℕ)
    (h : runLenF a b pop ahi bhi (f + 1) i j ≠ 0) :
    ∃ x, i < ahi ∧ j < bhi ∧ a[i]? = some x ∧ b[j]? = some x ∧ pop x = false ∧
      runLenF a b pop ahi bhi (f + 1) i j =
        runLenF a b pop ahi bhi f (i + 1) (j + 1) + 1 := by
  by_cases hc : i < ahi ∧ j < bhi
  · rcases ha : a[i]? with _ | x
    · exfalso; apply h; simp only [runLenF, if_pos hc, ha]
    · rcases hb : b[j]? with _ | y
      · exfalso; apply h; simp only [runLenF, if_pos hc, ha, hb]
      · by_cases hxy : x = y ∧ pop y = false
        · obtain ⟨hx, hp⟩ := hxy
          subst hx
          exact ⟨x, hc.1, hc.2, rfl, rfl, hp,
            runLenF_succ_eq a b pop ahi bhi f i j x hc.1 hc.2 ha hb hp⟩
        · exfalso; apply h
          simp only [runLenF, if_pos hc, ha, hb]
          rw [if_neg hxy]
  · exfalso; apply h; simp only [runLenF, if_neg hc]

lemma runLenF_self_le (s : List Char) (pop : Char → Bool) (hi : ℕ) :
    ∀ fuel i j, runLenF s s pop hi hi fuel i j ≤ runLenF s s pop hi hi fuel i i ∧
      runLenF s s pop hi hi fuel i j ≤ runLenF s s pop hi hi fuel j j := by
  intro fuel
  induction fuel with
  | zero => intro i j; simp [runLenF]
  | succ f ih =>
    intro i j
    by_cases h0 : runLenF s s pop hi hi (f + 1) i j = 0
    · rw [h0]; exact ⟨Nat.zero_le _, Nat.zero_le _⟩
    · obtain ⟨x, hi1, hj1, hx1, hx2, hpx, heq⟩ :=
        runLenF_succ_ne_zero s s pop hi hi f i j h0
      have e1 : runLenF s s pop hi hi (f + 1) i i =
          runLenF s s pop hi hi f (i + 1) (i + 1) + 1 :=
        runLenF_succ_eq s s pop hi hi f i i x hi1 hi1 hx1 hx1 hpx
      have e2 : runLenF s s pop hi hi (f + 1) j j =
          runLenF s s pop hi hi f (j + 1) (j + 1) + 1 :=
        runLenF_succ_eq s s pop hi hi f j j x hj1 hj1 hx2 hx2 hpx
      have := ih (i + 1) (j + 1)
      rw [heq, e1, e2]
      omega

lemma mem_range'_bounds : ∀ (w r x : ℕ), x ∈ List.range' r w → r ≤ x ∧ x < r + w := by
  intro w
  induction w with
  | zero => intro r x hx; simp [List.range'] at hx
  | succ n ih =>
    intro r x hx
    simp only [List.range'] at hx
    rcases List.mem_cons.mp hx with h | h
    · omega
    · have := ih (r + 1) x h; omega

lemma bestInRow_bounds (a b : List Char) (pop : Char → Bool)
    (ahi bhi alo blo i : ℕ) (hia : alo ≤ i) (hia2 : i < ahi) :
    ∀ js st, (∀ j ∈ js, blo ≤ j ∧ j < bhi) →
      alo ≤ st.1 ∧ st.1 + st.2.2 ≤ ahi ∧ blo ≤ st.2.1 ∧ st.2.1 + st.2.2 ≤ bhi →
      alo ≤ (bestInRow a b pop ahi bhi i js st).1 ∧
        (bestInRow a b pop ahi bhi i js st).1 +
          (bestInRow a b pop ahi bhi i js st).2.2 ≤ ahi ∧
        blo ≤ (bestInRow a b pop ahi bhi i js st).2.1 ∧
        (bestInRow a b pop ahi bhi i js st).2.1 +
          (bestInRow a b pop ahi bhi i js st).2.2 ≤ bhi := by
  intro js
  induction js with
  | nil => intro st _ hst; simpa [bestInRow] using hst
  | cons j js ih =>
    intro st hjs hst
    have hj := hjs j (List.mem_cons_self j js)
    have hk := runLenF_le a b pop ahi bhi ahi i j
    simp only [bestInRow]
    apply ih
    · intro j' hj'; exact hjs j' (List.mem_cons_of_mem _ hj')
    · by_cases hlt : st.2.2 < runLenF a b pop ahi bhi ahi i j
      · rw [if_pos hlt]
        refine ⟨?_, ?_, ?_, ?_⟩ <;> simp <;> omega
      · rw [if_neg hlt]
        exact hst

lemma bestSearch_bounds (a b : List Char) (pop : Char → Bool)
    (ahi bhi alo blo bw : ℕ) :
    ∀ is st, (∀ i ∈ is, alo ≤ i ∧ i < ahi) →
      (∀ j ∈ List.range' blo bw, blo ≤ j ∧ j < bhi) →
      alo ≤ st.1 ∧ st.1 + st.2.2 ≤ ahi ∧ blo ≤ st.2.1 ∧ st.2.1 + st.2.2 ≤ bhi →
      alo ≤ (bestSearch a b pop ahi bhi blo bw is st).1 ∧
        (bestSearch a b pop ahi bhi blo bw is st).1 +
          (bestSearch a b pop ahi bhi blo bw is st).2.2 ≤ ahi ∧
        blo ≤ (bestSearch a b pop ahi bhi blo bw is st).2.1 ∧
        (bestSearch a b pop ahi bhi blo bw is st).2.1 +
          (bestSearch a b pop ahi bhi blo bw is st).2.2 ≤ bhi := by
  intro is
  induction is with
  | nil => intro st _ _ hst; simpa [bestSearch] using hst
  | cons i is ih =>
    intro st his hcols hst
    have hi := his i (List.mem_cons_self i is)
    simp only [bestSearch]
    apply ih
    · intro i' hi'; exact his i' (List.mem_cons_of_mem _ hi')
    · exact hcols
    · exact bestInRow_bounds a b pop ahi bhi alo blo i hi.1 hi.2 _ st hcols hst

lemma bestMatch_bounds (a b : List Char) (alo ahi blo bhi : ℕ)
    (halo : alo ≤ ahi) (hblo : blo ≤ bhi) :
    alo ≤ (bestMatch a b alo ahi blo bhi).1 ∧
      (bestMatch a b alo ahi blo bhi).1 + (bestMatch a b alo ahi blo bhi).2.2 ≤ ahi ∧
      blo ≤ (bestMatch a b alo ahi blo bhi).2.1 ∧
      (bestMatch a b alo ahi blo bhi).2.1 + (bestMatch a b alo ahi blo bhi).2.2 ≤ bhi := by
  unfold bestMatch
  apply bestSearch_bounds
  · intro i hi
    have := mem_range'_bounds (ahi - alo) alo i hi
    omega
  · intro j hj
    have := mem_range'_bounds (bhi - blo) blo j hj
    omega
  · refine ⟨?_, ?_, ?_, ?_⟩ <;> simp <;> omega

lemma extendLeftF_bounds (a b : List Char) (alo blo ahi bhi : ℕ) :
    ∀ fuel st, alo ≤ st.1 ∧ st.1 + st.2.2 ≤ ahi ∧ blo ≤ st.2.1 ∧ st.2.1 + st.2.2 ≤ bhi →
      alo ≤ (extendLeftF a b alo blo fuel st).1 ∧
        (extendLeftF a b alo blo fuel st).1 + (extendLeftF a b alo blo fuel st).2.2 ≤ ahi ∧
        blo ≤ (extendLeftF a b alo blo fuel st).2.1 ∧
        (extendLeftF a b alo blo fuel st).2.1 + (extendLeftF a b alo blo fuel st).2.2 ≤ bhi := by
  intro fuel
  induction fuel with
  | zero => intro st hst; simpa [extendLeftF] using hst
  | succ f ih =>
    rintro ⟨i, j, k⟩ hst
    simp only [extendLeftF]
    split <;> try exact hst
    split <;> try exact hst
    split <;> try exact hst
    apply ih
    simp at hst ⊢
    omega

lemma extendRightF_bounds (a b : List Char) (ahi bhi : ℕ) (alo blo : ℕ) :
    ∀ fuel st, alo ≤ st.1 ∧ st.1 + st.2.2 ≤ ahi ∧ blo ≤ st.2.1 ∧ st.2.1 + st.2.2 ≤ bhi →
      alo ≤ (extendRightF a b ahi bhi fuel st).1 ∧
        (extendRightF a b ahi bhi fuel st).1 + (extendRightF a b ahi bhi fuel st).2.2 ≤ ahi ∧
        blo ≤ (extendRightF a b ahi bhi fuel st).2.1 ∧
        (extendRightF a b ahi bhi fuel st).2.1 + (extendRightF a b ahi bhi fuel st).2.2 ≤ bhi := by
  intro fuel
  induction fuel with
  | zero => intro st hst; simpa [extendRightF] using hst
  | succ f ih =>
    rintro ⟨i, j, k⟩ hst
    simp only [extendRightF]
    split <;> try exact hst
    split <;> try exact hst
    split <;> try exact hst
    apply ih
    simp at hst ⊢
    omega

lemma findLongestMatch_bounds (a b : List Char) (alo ahi blo bhi : ℕ)
    (halo : alo ≤ ahi) (hblo : blo ≤ bhi) :
    alo ≤ (findLongestMatch a b alo ahi blo bhi).1 ∧
      (findLongestMatch a b alo ahi blo bhi).1 +
        (findLongestMatch a b alo ahi blo bhi).2.2 ≤ ahi ∧
      blo ≤ (findLongestMatch a b alo ahi blo bhi).2.1 ∧
      (findLongestMatch a b alo ahi blo bhi).2.1 +
        (findLongestMatch a b alo ahi blo bhi).2.2 ≤ bhi := by
  unfold findLongestMatch
  exact extendRightF_bounds a b ahi bhi alo blo _ _
    (extendLeftF_bounds a b alo blo ahi bhi _ _
      (bestMatch_bounds a b alo ahi blo bhi halo hblo))

lemma matchTotalF_le (a b : List Char) :
    ∀ fuel alo ahi blo bhi, alo ≤ ahi → blo ≤ bhi →
      matchTotalF a b fuel alo ahi blo bhi ≤ min (ahi - alo) (bhi - blo) := by
  intro fuel
  induction fuel with
  | zero => intro alo ahi blo bhi _ _; simp [matchTotalF]
  | succ f ih =>
    intro alo ahi blo bhi halo hblo
    have hm := findLongestMatch_bounds a b alo ahi blo bhi halo hblo
    simp only [matchTotalF]
    split
    · omega
    · have h1 := ih alo (findLongestMatch a b alo ahi blo bhi).1 blo
        (findLongestMatch a b alo ahi blo bhi).2.1 hm.1 hm.2.2.1
      have h2 := ih ((findLongestMatch a b alo ahi blo bhi).1 +
          (findLongestMatch a b alo ahi blo bhi).2.2) ahi
        ((findLongestMatch a b alo ahi blo bhi).2.1 +
          (findLongestMatch a b alo ahi blo bhi).2.2) bhi hm.2.1 hm.2.2.2
      omega

lemma bestInRow_diag (s : List Char) (pop : Char → Bool) (n i : ℕ) :
    ∀ (w c : ℕ) (st : ℕ × ℕ × ℕ),
      st.1 = st.2.1 →
      (∀ t, t < i → runLenF s s pop n n n t t ≤ st.2.2) →
      (i < c → runLenF s s pop n n n i i ≤ st.2.2) →
      (bestInRow s s pop n n i (List.range' c w) st).1 =
          (bestInRow s s pop n n i (List.range' c w) st).2.1 ∧
        (∀ t, t < i →
          runLenF s s pop n n n t t ≤ (bestInRow s s pop n n i (List.range' c w) st).2.2) ∧
        (i < c + w →
          runLenF s s pop n n n i i ≤ (bestInRow s s pop n n i (List.range' c w) st).2.2) ∧
        st.2.2 ≤ (bestInRow s s pop n n i (List.range' c w) st).2.2 := by
  intro w
  induction w with
  | zero =>
    intro c st h1 h2 h3
    simp only [List.range', bestInRow]
    exact ⟨h1, h2, fun h => h3 (by omega), le_refl _⟩
  | succ w ih =>
    intro c st h1 h2 h3
    simp only [List.range', bestInRow]
    rcases Nat.lt_trichotomy c i with hc | hc | hc
    · have hk : runLenF s s pop n n n i c ≤ st.2.2 :=
        le_trans (runLenF_self_le s pop n n i c).2 (h2 c hc)
      rw [if_neg (by omega)]
      obtain ⟨g1, g2, g3, g4⟩ := ih (c + 1) st h1 h2 (fun h => absurd h (by omega))
      exact ⟨g1, g2, fun h => g3 (by omega), g4⟩
    · subst hc
      by_cases hlt : st.2.2 < runLenF s s pop n n n c c
      · rw [if_pos hlt]
        obtain ⟨g1, g2, g3, g4⟩ := ih (c + 1) (c, c, runLenF s s pop n n n c c) rfl
          (fun t ht => le_trans (le_of_lt (lt_of_le_of_lt (h2 t ht) hlt)) (le_refl _))
          (fun _ => le_refl _)
        exact ⟨g1, g2, fun _ => g3 (by omega), le_trans (le_of_lt hlt) g4⟩
      · rw [if_neg hlt]
        obtain ⟨g1, g2, g3, g4⟩ := ih (c + 1) st h1 h2 (fun _ => le_of_not_lt hlt)
        exact ⟨g1, g2, fun _ => g3 (by omega), g4⟩
    · have hk : runLenF s s pop n n n i c ≤ st.2.2 :=
        le_trans (runLenF_self_le s pop n n i c).1 (h3 hc)
      rw [if_neg (by omega)]
      obtain ⟨g1, g2, g3, g4⟩ := ih (c + 1) st h1 h2 (fun _ => h3 hc)
      exact ⟨g1, g2, fun _ => g3 (by omega), g4⟩

lemma bestSearch_diag (s : List Char) (pop : Char → Bool) (n : ℕ) :
    ∀ (rowcount r : ℕ) (st : ℕ × ℕ × ℕ), r + rowcount ≤ n →
      st.1 = st.2.1 →
      (∀ t, t < r → runLenF s s pop n n n t t ≤ st.2.2) →
      (bestSearch s s pop n n 0 n (List.range' r rowcount) st).1 =
        (bestSearch s s pop n n 0 n (List.range' r rowcount) st).2.1 := by
  intro rowcount
  induction rowcount with
  | zero => intro r st _ h1 _; simpa [bestSearch, List.range'] using h1
  | succ w ih =>
    intro r st hr h1 h2
    simp only [List.range', bestSearch]
    obtain ⟨g1, g2, g3, g4⟩ :=
      bestInRow_diag s pop n r n 0 st h1 h2 (fun h => absurd h (by omega))
    apply ih (r + 1) _ (by omega) g1
    intro t ht
    rcases Nat.lt_or_ge t r with h | h
    · exact g2 t h
    · have : t = r := by omega
      subst this
      exact g3 (by omega)

lemma bestMatch_self_diag (s : List Char) (n : ℕ) :
    (bestMatch s s 0 n 0 n).1 = (bestMatch s s 0 n 0 n).2.1 := by
  unfold bestMatch
  simp only [Nat.sub_zero]
  exact bestSearch_diag s (popularChar s) n n 0 (0, 0, 0) (by omega) rfl
    (fun t ht => absurd ht (by omega))

lemma extendLeftF_self (s : List Char) :
    ∀ fuel i k, i ≤ s.length → i ≤ fuel →
      extendLeftF s s 0 0 fuel (i, i, k) = (0, 0, i + k) := by
  intro fuel
  induction fuel with
  | zero =>
    intro i k hi hf
    have : i = 0 := by omega
    subst this
    simp [extendLeftF]
  | succ f ih =>
    intro i k hi hf
    by_cases hi0 : 0 < i
    · have hidx : i - 1 < s.length := by omega
      have hsome : s[i - 1]? = some (s[i - 1]) := List.getElem?_eq_getElem hidx
      simp only [extendLeftF]
      rw [if_pos ⟨hi0, hi0⟩]
      simp only [hsome, if_true]
      have h : i + k = (i - 1) + (k + 1) := by omega
      rw [h]
      exact ih (i - 1) (k + 1) (by omega) (by omega)
    · have : i = 0 := by omega
      subst this
      simp only [extendLeftF]
      rw [if_neg (by omega)]
      simp

lemma extendRightF_self (s : List Char) (n : ℕ) (hn : n ≤ s.length) :
    ∀ fuel i k, i + k ≤ n → n - (i + k) ≤ fuel →
      extendRightF s s n n fuel (i, i, k) = (i, i, n - i) := by
  intro fuel
  induction fuel with
  | zero =>
    intro i k hik hf
    have : k = n - i := by omega
    subst this
    simp [extendRightF]
  | succ f ih =>
    intro i k hik hf
    by_cases h : i + k < n
    · have hidx : i + k < s.length := by omega
      have hsome : s[i + k]? = some (s[i + k]) := List.getElem?_eq_getElem hidx
      simp only [extendRightF]
      rw [if_pos ⟨h, h⟩]
      simp only [hsome, if_true]
      exact ih i (k + 1) (by omega) (by omega)
    · have : k = n - i := by omega
      subst this
      simp only [extendRightF]
      rw [if_neg (by omega)]

lemma extendLeftF_stop (a b : List Char) (alo blo : ℕ) (st : ℕ × ℕ × ℕ)
    (h : ¬(alo < st.1 ∧ blo < st.2.1)) :
    ∀ fuel, extendLeftF a b alo blo fuel st = st := by
  intro fuel
  cases fuel with
  | zero => rfl
  | succ f =>
    obtain ⟨i, j, k⟩ := st
    simp only [extendLeftF]
    rw [if_neg h]

lemma extendRightF_stop (a b : List Char) (ahi bhi : ℕ) (st : ℕ × ℕ × ℕ)
    (h : ¬(st.1 + st.2.2 < ahi ∧ st.2.1 + st.2.2 < bhi)) :
    ∀ fuel, extendRightF a b ahi bhi fuel st = st := by
  intro fuel
  cases fuel with
  | zero => rfl
  | succ f =>
    obtain ⟨i, j, k⟩ := st
    simp only [extendRightF]
    rw [if_neg h]

lemma findLongestMatch_self (s : List Char) :
    findLongestMatch s s 0 s.length 0 s.length = (0, 0, s.length) := by
  have hb := bestMatch_bounds s s 0 s.length 0 s.length (by omega) (by omega)
  have hd := bestMatch_self_diag s s.length
  rcases hbm : bestMatch s s 0 s.length 0 s.length with ⟨i0, j0, k0⟩
  rw [hbm] at hb hd
  simp only at hb hd
  subst hd
  unfold findLongestMatch
  rw [hbm]
  rw [extendLeftF_self s (s.length + s.length) i0 k0 (by omega) (by omega)]
  rw [extendRightF_self s s.length (le_refl _) (s.length + s.length) 0 (i0 + k0)
    (by omega) (by omega)]
  simp

lemma findLongestMatch_empty (a b : List Char) (x y : ℕ) :
    findLongestMatch a b x x y y = (x, y, 0) := by
  unfold findLongestMatch bestMatch
  simp only [Nat.sub_self, List.range', bestSearch]
  rw [extendLeftF_stop a b x y (x, y, 0) (by simp)]
  rw [extendRightF_stop a b x y (x, y, 0) (by simp)]

lemma matchTotalF_empty (a b : List Char) :
    ∀ fuel x y, matchTotalF a b fuel x x y y = 0 := by
  intro fuel
  cases fuel with
  | zero => intro x y; simp [matchTotalF]
  | succ f => intro x y; simp [matchTotalF, findLongestMatch_empty]

lemma matchTotal_self (s : List Char) : matchTotal s s = s.length := by
  unfold matchTotal
  rcases hn : s.length with _ | m
  · simp [matchTotalF]
  · rw [show (m + 1) + (m + 1) = ((m + 1) + m) + 1 from rfl]
    simp only [matchTotalF]
    have hflm := findLongestMatch_self s
    rw [hn] at hflm
    rw [hflm]
    simp only
    rw [if_neg (by omega)]
    simp [matchTotalF_empty]

lemma matchTotal_le (a b : List Char) : matchTotal a b ≤ min a.length b.length := by
  have := matchTotalF_le a b (a.length + b.length) 0 a.length 0 b.length
    (by omega) (by omega)
  simpa [matchTotal] using this

lemma ratioQ_nonneg (s1 s2 : String) : 0 ≤ ratioQ s1 s2 := by
  unfold ratioQ
  split
  · norm_num
  · positivity

lemma ratioQ_le_one (s1 s2 : String) : ratioQ s1 s2 ≤ 1 := by
  unfold ratioQ
  split
  · norm_num
  · rename_i hT
    have hpos : (0 : ℚ) < (s1.toList.length : ℚ) + (s2.toList.length : ℚ) := by
      have : 0 < s1.toList.length + s2.toList.length := Nat.pos_of_ne_zero hT
      exact_mod_cast this
    rw [div_le_one hpos]
    have h := matchTotal_le s1.toList s2.toList
    have h2 : 2 * matchTotal s1.toList s2.toList ≤
        s1.toList.length + s2.toList.length := by omega
    exact_mod_cast h2

lemma ratioQ_self (s : String) (h : s ≠ "") : ratioQ s s = 1 := by
  have hlen : s.toList.length ≠ 0 := by
    intro hc
    apply h
    cases s with
    | mk data =>
      simp only [String.toList] at hc
      have : data = [] := List.length_eq_zero.mp hc
      simp [this]
  unfold ratioQ
  rw [if_neg (by omega)]
  rw [matchTotal_self]
  have hpos : (0 : ℚ) < (s.toList.length : ℚ) := by
    exact_mod_cast Nat.pos_of_ne_zero hlen
  rw [show ((s.toList.length : ℚ) + (s.toList.length : ℚ)) =
    2 * (s.toList.length : ℚ) by ring]
  exact div_self (ne_of_gt (by linarith))

/-- C3: for every pair of arguments, `get_similarity` returns a value in the
closed interval from 0 to 1, and returns exactly 0 whenever either input
string is null (`none`) or empty. -/
theorem C3_get_similarity_range (t1 t2 : Option String) :
    0 ≤ get_similarity t1 t2 ∧ get_similarity t1 t2 ≤ 1 ∧
      ((t1 = none ∨ t1 = some "" ∨ t2 = none ∨ t2 = some "") →
        get_similarity t1 t2 = 0) := by
  rcases t1 with _ | s1 <;> rcases t2 with _ | s2
  · refine ⟨?_, ?_, ?_⟩ <;> simp [get_similarity]
  · refine ⟨?_, ?_, ?_⟩ <;> simp [get_similarity]
  · refine ⟨?_, ?_, ?_⟩ <;> simp [get_similarity]
  · by_cases h : s1 = "" ∨ s2 = ""
    · refine ⟨?_, ?_, ?_⟩ <;> simp only [get_similarity, if_pos h] <;> norm_num
    · simp only [get_similarity, if_neg h]
      refine ⟨ratioQ_nonneg s1 s2, ratioQ_le_one s1 s2, ?_⟩
      intro hc
      rcases hc with hc | hc | hc | hc <;> simp at hc <;> tauto

/-- Witness for C3 at a concrete input with an empty left string. -/
theorem C3_get_similarity_range_witness :
    0 ≤ get_similarity (some "") (some "x") ∧
      get_similarity (some "") (some "x") ≤ 1 ∧
      get_similarity (some "") (some "x") = 0 :=
  ⟨(C3_get_similarity_range (some "") (some "x")).1,
   (C3_get_similarity_range (some "") (some "x")).2.1,
   (C3_get_similarity_range (some "") (some "x")).2.2 (Or.inr (Or.inl rfl))⟩

/-- C2 counterexample: `get_similarity` is not symmetric.  The sequence
matcher picks the greedy longest block earliest in its first argument, so
comparing "ab" with "bacb" matches both characters (ratio 2/3) while the
swapped comparison matches only one (ratio 1/3).  Python difflib returns
0.6666... and 0.3333... on this pair. -/
theorem C2_cex_not_symmetric :
    get_similarity (some "ab") (some "bacb") ≠
      get_similarity (some "bacb") (some "ab") := by
  have h1 : matchTotal "ab".toList "bacb".toList = 2 := by decide
  have h2 : matchTotal "bacb".toList "ab".toList = 1 := by decide
  have l1 : "ab".toList.length = 2 := by decide
  have l2 : "bacb".toList.length = 4 := by decide
  simp only [get_similarity]
  rw [if_neg (by simp), if_neg (by simp)]
  unfold ratioQ
  rw [h1, h2, l1, l2]
  norm_num

/-- C2 (amended): `get_similarity` of every non-empty string with itself is
1 (the symmetry half of the claim fails, see the counterexample). -/
theorem C2_amended_similarity_self (s : String) (h : s ≠ "") :
    get_similarity (some s) (some s) = 1 := by
  simp only [get_similarity]
  rw [if_neg (by tauto)]
  exact ratioQ_self s h

/-- Witness for the amended C2 at the one-character string "a". -/
theorem C2_amended_similarity_self_witness :
    get_similarity (some "a") (some "a") = 1 :=
  C2_amended_similarity_self "a" (by decide)

/-- C4: for every provider tag, `normalize_data` returns a null result when
the raw input is null (or falsy, line 24), and any error the extraction
raises is caught and turned into a null result (lines 82 to 84); the
function is total, so no exception ever reaches the caller. -/
theorem C4_normalize_error_handling (d : Option JVal) (p : Provider) :
    ((d = none ∨ ∃ v, d = some v ∧ pyTruthy v = false) →
        normalize_data d p = none) ∧
      (∀ v e, d = some v → extract v p = Except.error e →
        normalize_data d p = none) := by
  constructor
  · intro h
    rcases h with h | ⟨v, hv, hf⟩
    · subst h; rfl
    · subst hv; simp [normalize_data, hf]
  · intro v e hv he
    subst hv
    by_cases ht : pyTruthy v
    · simp [normalize_data, ht, he, Except.toOption]
    · simp [normalize_data, ht]

/-- Witness for C4: a falsy number input and a Deepgram extraction that
raises `AttributeError` on a string input both give a null result. -/
theorem C4_normalize_error_handling_witness :
    normalize_data (some (.num 0)) .OpenAI = none ∧
      normalize_data (some (.str "x")) .Deepgram = none :=
  ⟨(C4_normalize_error_handling (some (.num 0)) .OpenAI).1
      (Or.inr ⟨.num 0, rfl, by simp [pyTruthy]⟩),
   (C4_normalize_error_handling (some (.str "x")) .Deepgram).2
      (.str "x") "AttributeError" rfl rfl⟩

/-- C10: for every provider tag, `normalize_data` returns a null result for
any falsy raw input, not only a null one: line 24 tests `not data`. -/
theorem C10_falsy_input (v : JVal) (p : Provider) (h : pyTruthy v = false) :
    normalize_data (some v) p = none := by
  simp [normalize_data, h]

/-- Witness for C10: the empty JSON object is falsy, so every provider maps
it to a null result rather than a zero-valued record. -/
theorem C10_falsy_input_witness :
    normalize_data (some (.obj [])) .OpenAI = none ∧
      normalize_data (some (.obj [])) .Deepgram = none ∧
      normalize_data (some (.obj [])) .AssemblyAI = none :=
  ⟨C10_falsy_input _ _ rfl, C10_falsy_input _ _ rfl, C10_falsy_input _ _ rfl⟩

lemma pyNum_ok (v : JVal) (q : ℚ) (h : pyNum v = .ok q) : v = .num q := by
  cases v <;> simp_all [pyNum]

lemma pyIndexFirst_arr (ws : List JVal) (x : JVal) (h : ws.head? = some x) :
    pyIndexFirst (.arr ws) = .ok x := by
  cases ws <;> simp_all [pyIndexFirst]

lemma pyIndexLast_arr (ws : List JVal) (x : JVal) (h : ws.getLast? = some x) :
    pyIndexLast (.arr ws) = .ok x := by
  simp [pyIndexLast, h]

lemma confList_length (dflt : ℚ) :
    ∀ ws confs, confList dflt ws = .ok confs → confs.length = ws.length := by
  intro ws
  induction ws with
  | nil =>
    intro confs h
    simp only [confList] at h
    cases h
    rfl
  | cons w ws ih =>
    intro confs h
    simp only [confList, bind_ok, pure_ok] at h
    obtain ⟨v, hv, q, hq, rest, hrest, heq⟩ := h
    subst heq
    simp [ih rest hrest]

lemma extract_openai_ok (d : JVal) (n : NormalizedTranscript) (ws : List JVal)
    (hok : extract d .OpenAI = .ok n) (hws : wordsOf d .OpenAI = .ok ws) :
    n.word_count = ws.length ∧ n.duration = n.end_ - n.start ∧ n.speakers = 1 ∧
      (ws = [] → n.start = 0 ∧ n.end_ = 0 ∧ n.confidence = 0) ∧
      (∀ w0 wl, ws.head? = some w0 → ws.getLast? = some wl →
        pyGetD w0 "start" (.num 0) = .ok (.num n.start) ∧
        pyGetD wl "end" (.num 0) = .ok (.num n.end_)) ∧
      (ws ≠ [] → ∃ confs, confList 1 ws = .ok confs ∧
        n.confidence = confs.sum / (confs.length : ℚ) * 100) := by
  simp only [wordsOf, bind_ok] at hws
  obtain ⟨w, hw, hmatch⟩ := hws
  have hwarr : w = .arr ws := by
    cases w <;> simp_all [pure_ok]
  subst hwarr
  simp only [extract, bind_ok, pure_ok] at hok
  obtain ⟨text, htext, words', hwords', sec, hsec, wc, hwc, hpure⟩ := hok
  have hweq : words' = .arr ws := by
    rw [hw] at hwords'
    exact (Except.ok.inj hwords').symm
  subst hweq
  have hwceq : wc = ws.length := by
    simp only [pyLen] at hwc
    exact (Except.ok.inj hwc).symm
  subst hwceq
  subst hpure
  by_cases hempty : ws = []
  · subst hempty
    have hfalse : pyTruthy (.arr []) = false := rfl
    simp only [openaiSec, hfalse, Bool.false_eq_true, if_false, pure_ok] at hsec
    subst hsec
    refine ⟨rfl, by simp, rfl, fun _ => ⟨rfl, rfl, rfl⟩, ?_, ?_⟩
    · intro w0 wl h0 _
      simp at h0
    · intro hne
      exact absurd rfl hne
  · have htruthy : pyTruthy (.arr ws) = true := by
      simp [pyTruthy, hempty]
    simp only [openaiSec, htruthy, if_true, bind_ok, pure_ok] at hsec
    obtain ⟨w0, hw0, wl, hwl, sv, hsv, s, hs, ev, hev, e, he, ws', hws', confs,
      hconfs, hsec⟩ := hsec
    have hws'eq : ws' = ws := by
      simp only [pyElems] at hws'
      exact (Except.ok.inj hws').symm
    rw [hws'eq] at hconfs
    have hsv' : sv = .num s := pyNum_ok sv s hs
    have hev' : ev = .num e := pyNum_ok ev e he
    subst hsv'
    subst hev'
    subst hsec
    have hcne : confs ≠ [] := by
      intro hc
      apply hempty
      have := confList_length 1 ws confs hconfs
      rw [hc] at this
      exact List.length_eq_zero.mp this.symm
    refine ⟨rfl, by simp, rfl, fun h => absurd h hempty, ?_, ?_⟩
    · intro w0' wl' h0 hl
      have e0 : w0 = w0' := by
        have := pyIndexFirst_arr ws w0' h0
        rw [this] at hw0
        exact (Except.ok.inj hw0).symm
      have el : wl = wl' := by
        have := pyIndexLast_arr ws wl' hl
        rw [this] at hwl
        exact (Except.ok.inj hwl).symm
      subst e0
      subst el
      constructor
      · simpa using hsv
      · simpa using hev
    · intro _
      refine ⟨confs, hconfs, ?_⟩
      simp [if_neg hcne]

lemma pyMean_ok (l : List ℚ) (m : ℚ) (hne : l ≠ []) (h : pyMean l = .ok m) :
    m = l.sum / (l.length : ℚ) := by
  rw [pyMean, if_neg hne] at h
  exact (Except.ok.inj h).symm

lemma extract_deepgram_ok (d : JVal) (n : NormalizedTranscript) (ws : List JVal)
    (hok : extract d .Deepgram = .ok n) (hws : wordsOf d .Deepgram = .ok ws) :
    n.word_count = ws.length ∧ n.duration = n.end_ - n.start ∧
      (ws = [] → n.start = 0 ∧ n.end_ = 0 ∧ n.confidence = 0 ∧ n.speakers = 0) ∧
      (∀ w0 wl, ws.head? = some w0 → ws.getLast? = some wl →
        pyGetD w0 "start" (.num 0) = .ok (.num n.start) ∧
        pyGetD wl "end" (.num 0) = .ok (.num n.end_)) ∧
      (ws ≠ [] → ∃ confs, confList 0 ws = .ok confs ∧
        n.confidence = confs.sum / (confs.length : ℚ) * 100) ∧
      (ws ≠ [] → ∃ sp, dgSpeakersAux ws [] = .ok sp ∧
        n.speakers = if sp = [] then 1 else sp.length) := by
  simp only [wordsOf, bind_ok] at hws
  obtain ⟨alt, halt, w, hw, hmatch⟩ := hws
  have hwarr : w = .arr ws := by
    cases w <;> simp_all [pure_ok]
  subst hwarr
  simp only [extract, bind_ok, pure_ok] at hok
  obtain ⟨alt', halt', text, htext, words', hwords', sec, hsec, wc, hwc, hpure⟩ := hok
  have halteq : alt' = alt := by
    rw [halt] at halt'
    exact (Except.ok.inj halt').symm
  subst halteq
  have hweq : words' = .arr ws := by
    rw [hw] at hwords'
    exact (Except.ok.inj hwords').symm
  subst hweq
  have hwceq : wc = ws.length := by
    simp only [pyLen] at hwc
    exact (Except.ok.inj hwc).symm
  subst hwceq
  subst hpure
  by_cases hempty : ws = []
  · subst hempty
    have hfalse : pyTruthy (.arr []) = false := rfl
    simp only [dgSec, hfalse, Bool.false_eq_true, if_false, pure_ok] at hsec
    subst hsec
    refine ⟨rfl, by simp, fun _ => ⟨rfl, rfl, rfl, rfl⟩, ?_, ?_, ?_⟩
    · intro w0 wl h0 _
      simp at h0
    · intro hne
      exact absurd rfl hne
    · intro hne
      exact absurd rfl hne
  · have htruthy : pyTruthy (.arr ws) = true := by
      simp [pyTruthy, hempty]
    simp only [dgSec, htruthy, if_true, bind_ok, pure_ok] at hsec
    obtain ⟨w0, hw0, wl, hwl, sv, hsv, s, hs, ev, hev, e, he, ws', hws', sp, hsp,
      confs, hconfs, m, hm, hsec⟩ := hsec
    have hws'eq : ws' = ws := by
      simp only [pyElems] at hws'
      exact (Except.ok.inj hws').symm
    rw [hws'eq] at hconfs hsp
    have hsv' : sv = .num s := pyNum_ok sv s hs
    have hev' : ev = .num e := pyNum_ok ev e he
    subst hsv'
    subst hev'
    subst hsec
    have hcne : confs ≠ [] := by
      intro hc
      apply hempty
      have := confList_length 0 ws confs hconfs
      rw [hc] at this
      exact List.length_eq_zero.mp this.symm
    have hmeq := pyMean_ok confs m hcne hm
    subst hmeq
    refine ⟨rfl, by simp, fun h => absurd h hempty, ?_, ?_, ?_⟩
    · intro w0' wl' h0 hl
      have e0 : w0 = w0' := by
        have := pyIndexFirst_arr ws w0' h0
        rw [this] at hw0
        exact (Except.ok.inj hw0).symm
      have el : wl = wl' := by
        have := pyIndexLast_arr ws wl' hl
        rw [this] at hwl
        exact (Except.ok.inj hwl).symm
      subst e0
      subst el
      constructor
      · simpa using hsv
      · simpa using hev
    · intro _
      exact ⟨confs, hconfs, rfl⟩
    · intro _
      exact ⟨sp, hsp, rfl⟩

lemma extract_assembly_ok (d : JVal) (n : NormalizedTranscript) (ws : List JVal)
    (hok : extract d .AssemblyAI = .ok n) (hws : wordsOf d .AssemblyAI = .ok ws) :
    n.word_count = ws.length ∧ n.duration = n.end_ - n.start ∧
      (ws = [] → n.start = 0 ∧ n.end_ = 0 ∧ n.confidence = 0 ∧ n.speakers = 0) ∧
      (∀ w0 wl, ws.head? = some w0 → ws.getLast? = some wl →
        ∃ qs qe, pyGetD w0 "start" (.num 0) = .ok (.num qs) ∧
          pyGetD wl "end" (.num 0) = .ok (.num qe) ∧
          n.start = qs / 1000 ∧ n.end_ = qe / 1000) ∧
      (ws ≠ [] → ∃ confs, confList 0 ws = .ok confs ∧
        n.confidence = confs.sum / (confs.length : ℚ) * 100) ∧
      (ws ≠ [] → ∃ sp, aaiSpeakersAux ws [] = .ok sp ∧
        n.speakers = if sp = [] then 1 else sp.length) := by
  simp only [wordsOf, bind_ok] at hws
  obtain ⟨w, hw, hmatch⟩ := hws
  have hwarr : w = .arr ws := by
    cases w <;> simp_all [pure_ok]
  subst hwarr
  simp only [extract, bind_ok, pure_ok] at hok
  obtain ⟨text, htext, words', hwords', sec, hsec, wc, hwc, hpure⟩ := hok
  have hweq : words' = .arr ws := by
    rw [hw] at hwords'
    exact (Except.ok.inj hwords').symm
  subst hweq
  have hwceq : wc = ws.length := by
    simp only [pyLen] at hwc
    exact (Except.ok.inj hwc).symm
  subst hwceq
  subst hpure
  by_cases hempty : ws = []
  · subst hempty
    have hfalse : pyTruthy (.arr []) = false := rfl
    simp only [aaiSec, hfalse, Bool.false_eq_true, if_false, pure_ok] at hsec
    subst hsec
    refine ⟨rfl, by simp, fun _ => ⟨rfl, rfl, rfl, rfl⟩, ?_, ?_, ?_⟩
    · intro w0 wl h0 _
      simp at h0
    · intro hne
      exact absurd rfl hne
    · intro hne
      exact absurd rfl hne
  · have htruthy : pyTruthy (.arr ws) = true := by
      simp [pyTruthy, hempty]
    simp only [aaiSec, htruthy, if_true, bind_ok, pure_ok] at hsec
    obtain ⟨w0, hw0, wl, hwl, sv, hsv, s, hs, ev, hev, e, he, ws', hws', sp, hsp,
      confs, hconfs, m, hm, hsec⟩ := hsec
    have hws'eq : ws' = ws := by
      simp only [pyElems] at hws'
      exact (Except.ok.inj hws').symm
    rw [hws'eq] at hconfs hsp
    have hsv' : sv = .num s := pyNum_ok sv s hs
    have hev' : ev = .num e := pyNum_ok ev e he
    subst hsv'
    subst hev'
    subst hsec
    have hcne : confs ≠ [] := by
      intro hc
      apply hempty
      have := confList_length 0 ws confs hconfs
      rw [hc] at this
      exact List.length_eq_zero.mp this.symm
    have hmeq := pyMean_ok confs m hcne hm
    subst hmeq
    refine ⟨rfl, by simp, fun h => absurd h hempty, ?_, ?_, ?_⟩
    · intro w0' wl' h0 hl
      have e0 : w0 = w0' := by
        have := pyIndexFirst_arr ws w0' h0
        rw [this] at hw0
        exact (Except.ok.inj hw0).symm
      have el : wl = wl' := by
        have := pyIndexLast_arr ws wl' hl
        rw [this] at hwl
        exact (Except.ok.inj hwl).symm
      subst e0
      subst el
      exact ⟨s, e, by simpa using hsv, by simpa using hev, rfl, rfl⟩
    · intro _
      exact ⟨confs, hconfs, rfl⟩
    · intro _
      exact ⟨sp, hsp, rfl⟩

lemma normalize_data_some (d : JVal) (p : Provider) (n : NormalizedTranscript)
    (h : normalize_data (some d) p = some n) :
    pyTruthy d = true ∧ extract d p = .ok n := by
  simp only [normalize_data] at h
  by_cases ht : pyTruthy d
  · rw [if_pos ht] at h
    refine ⟨ht, ?_⟩
    cases hex : extract d p with
    | ok m =>
      rw [hex] at h
      simp only [Except.toOption] at h
      rw [Option.some.inj h]
    | error e =>
      rw [hex] at h
      simp [Except.toOption] at h
  · rw [if_neg ht] at h
    simp at h

/-- C5: for every provider and every successfully normalized response whose
word value is an actual list, `word_count` is the length of that list,
`duration` is exactly `end - start` (no clamping: it is negative when the
timestamps are disordered), and `start` and `end` come from the first word
`start` and last word `end` timestamps (scaled from milliseconds for
AssemblyAI). -/
theorem C5_word_count_duration (p : Provider) (d : JVal)
    (n : NormalizedTranscript) (ws : List JVal)
    (hn : normalize_data (some d) p = some n) (hws : wordsOf d p = .ok ws) :
    n.word_count = ws.length ∧ n.duration = n.end_ - n.start ∧
      (∀ w0 wl, ws.head? = some w0 → ws.getLast? = some wl →
        pyGetD w0 "start" (.num 0) = .ok (.num (n.start * scaleOf p)) ∧
        pyGetD wl "end" (.num 0) = .ok (.num (n.end_ * scaleOf p))) := by
  have hex := (normalize_data_some d p n hn).2
  cases p with
  | OpenAI =>
    obtain ⟨h1, h2, _, _, h5, _⟩ := extract_openai_ok d n ws hex hws
    refine ⟨h1, h2, ?_⟩
    intro w0 wl h0 hl
    have := h5 w0 wl h0 hl
    simpa [scaleOf] using this
  | Deepgram =>
    obtain ⟨h1, h2, _, h4, _, _⟩ := extract_deepgram_ok d n ws hex hws
    refine ⟨h1, h2, ?_⟩
    intro w0 wl h0 hl
    have := h4 w0 wl h0 hl
    simpa [scaleOf] using this
  | AssemblyAI =>
    obtain ⟨h1, h2, _, h4, _, _⟩ := extract_assembly_ok d n ws hex hws
    refine ⟨h1, h2, ?_⟩
    intro w0 wl h0 hl
    obtain ⟨qs, qe, hqs, hqe, hst, hen⟩ := h4 w0 wl h0 hl
    have hs : n.start * scaleOf .AssemblyAI = qs := by
      rw [hst]; simp [scaleOf]
    have he : n.end_ * scaleOf .AssemblyAI = qe := by
      rw [hen]; simp [scaleOf]
    rw [hs, he]
    exact ⟨hqs, hqe⟩

lemma oaiDisordered_eval :
    normalize_data (some oaiDisordered) .OpenAI =
      some ⟨.str "x", 5, 1, -4, 100, 1, 1⟩ := by
  simp [normalize_data, oaiDisordered, extract, openaiSec, pyTruthy, pyGetD,
    lookupField, pyIndexFirst, pyIndexLast, pyElems, pyLen, pyNum, confList,
    Except.toOption, Bind.bind, Except.bind, Pure.pure, Except.pure]
  norm_num

lemma oaiDisordered_words :
    wordsOf oaiDisordered .OpenAI =
      .ok [.obj [("start", .num 5), ("end", .num 1), ("confidence", .num 1)]] := by
  simp [wordsOf, oaiDisordered, pyGetD, lookupField, Bind.bind, Except.bind,
    Pure.pure, Except.pure]

/-- Witness for C5 at a one-word OpenAI response with disordered timestamps:
word count 1, duration -4 = 1 - 5 with no clamping. -/
theorem C5_word_count_duration_witness :
    (⟨.str "x", 5, 1, -4, 100, 1, 1⟩ : NormalizedTranscript).word_count =
        [JVal.obj [("start", .num 5), ("end", .num 1), ("confidence", .num 1)]].length ∧
      (⟨.str "x", 5, 1, -4, 100, 1, 1⟩ : NormalizedTranscript).duration =
        (⟨.str "x", 5, 1, -4, 100, 1, 1⟩ : NormalizedTranscript).end_ -
          (⟨.str "x", 5, 1, -4, 100, 1, 1⟩ : NormalizedTranscript).start ∧
      pyGetD (.obj [("start", .num 5), ("end", .num 1), ("confidence", .num 1)])
          "start" (.num 0) =
        .ok (.num ((⟨.str "x", 5, 1, -4, 100, 1, 1⟩ : NormalizedTranscript).start *
          scaleOf .OpenAI)) := by
  obtain ⟨h1, h2, h3⟩ := C5_word_count_duration .OpenAI oaiDisordered
    ⟨.str "x", 5, 1, -4, 100, 1, 1⟩
    [.obj [("start", .num 5), ("end", .num 1), ("confidence", .num 1)]]
    oaiDisordered_eval oaiDisordered_words
  exact ⟨h1, h2, (h3 _ _ rfl rfl).1⟩

/-- C6: for every successfully normalized AssemblyAI response, word-level
start and end timestamps are converted from milliseconds to seconds by
dividing by 1000. -/
theorem C6_assembly_millis (d : JVal) (n : NormalizedTranscript)
    (ws : List JVal) (w0 wl : JVal) (qs qe : ℚ)
    (hn : normalize_data (some d) .AssemblyAI = some n)
    (hws : wordsOf d .AssemblyAI = .ok ws)
    (h0 : ws.head? = some w0) (hl : ws.getLast? = some wl)
    (hqs : pyGetD w0 "start" (.num 0) = .ok (.num qs))
    (hqe : pyGetD wl "end" (.num 0) = .ok (.num qe)) :
    n.start = qs / 1000 ∧ n.end_ = qe / 1000 := by
  have hex := (normalize_data_some d .AssemblyAI n hn).2
  obtain ⟨_, _, _, h4, _, _⟩ := extract_assembly_ok d n ws hex hws
  obtain ⟨qs', qe', hqs', hqe', hst, hen⟩ := h4 w0 wl h0 hl
  rw [hqs'] at hqs
  rw [hqe'] at hqe
  have e1 : qs' = qs := JVal.num.inj (Except.ok.inj hqs)
  have e2 : qe' = qe := JVal.num.inj (Except.ok.inj hqe)
  subst e1
  subst e2
  exact ⟨hst, hen⟩

lemma aaiMillis_eval :
    normalize_data (some aaiMillis) .AssemblyAI =
      some ⟨.str "ok", 1, 2, 1, 90, 1, 1⟩ := by
  simp [normalize_data, aaiMillis, extract, aaiSec, pyTruthy, pyGetD, pyGetNone,
    lookupField, pyIndexFirst, pyIndexLast, pyElems, pyLen, pyNum, confList,
    aaiSpeakersAux, pyHashable, setInsert, JVal.isNull, pyMean,
    Except.toOption, Bind.bind, Except.bind, Pure.pure, Except.pure]
  norm_num

lemma aaiMillis_words :
    wordsOf aaiMillis .AssemblyAI =
      .ok [.obj [("start", .num 1000), ("end", .num 2000),
                 ("confidence", .num (9/10))]] := by
  simp [wordsOf, aaiMillis, pyGetD, lookupField, Bind.bind, Except.bind,
    Pure.pure, Except.pure]

/-- Witness for C6 at the specification example: start 1000 ms and end
2000 ms normalize to 1 and 2 seconds. -/
theorem C6_assembly_millis_witness :
    normalize_data (some aaiMillis) .AssemblyAI =
        some ⟨.str "ok", 1, 2, 1, 90, 1, 1⟩ ∧
      (1 : ℚ) = 1000 / 1000 ∧ (2 : ℚ) = 2000 / 1000 := by
  have h := C6_assembly_millis aaiMillis ⟨.str "ok", 1, 2, 1, 90, 1, 1⟩
    [.obj [("start", .num 1000), ("end", .num 2000), ("confidence", .num (9/10))]]
    (.obj [("start", .num 1000), ("end", .num 2000), ("confidence", .num (9/10))])
    (.obj [("start", .num 1000), ("end", .num 2000), ("confidence", .num (9/10))])
    1000 2000 aaiMillis_eval aaiMillis_words rfl rfl
    (by simp [pyGetD, lookupField]) (by simp [pyGetD, lookupField])
  exact ⟨aaiMillis_eval, h.1, h.2⟩

/-- C9: for every provider and successfully normalized response whose word
value is an actual list, the confidence is 0 when there are no words, and
otherwise the arithmetic mean of the per-word confidences (default 1.0 for
OpenAI, 0 for Deepgram and AssemblyAI) times 100. -/
theorem C9_confidence_mean (p : Provider) (d : JVal) (n : NormalizedTranscript)
    (ws : List JVal)
    (hn : normalize_data (some d) p = some n) (hws : wordsOf d p = .ok ws) :
    (ws = [] → n.confidence = 0) ∧
      (ws ≠ [] → ∃ confs, confList (confDefault p) ws = .ok confs ∧
        confs.length = ws.length ∧
        n.confidence = confs.sum / (confs.length : ℚ) * 100) := by
  have hex := (normalize_data_some d p n hn).2
  cases p with
  | OpenAI =>
    obtain ⟨_, _, _, hemp, _, hconf⟩ := extract_openai_ok d n ws hex hws
    refine ⟨fun h => (hemp h).2.2, fun h => ?_⟩
    obtain ⟨confs, hc, hval⟩ := hconf h
    exact ⟨confs, by simpa [confDefault] using hc, confList_length 1 ws confs hc, hval⟩
  | Deepgram =>
    obtain ⟨_, _, hemp, _, hconf, _⟩ := extract_deepgram_ok d n ws hex hws
    refine ⟨fun h => (hemp h).2.2.1, fun h => ?_⟩
    obtain ⟨confs, hc, hval⟩ := hconf h
    exact ⟨confs, by simpa [confDefault] using hc, confList_length 0 ws confs hc, hval⟩
  | AssemblyAI =>
    obtain ⟨_, _, hemp, _, hconf, _⟩ := extract_assembly_ok d n ws hex hws
    refine ⟨fun h => (hemp h).2.2.1, fun h => ?_⟩
    obtain ⟨confs, hc, hval⟩ := hconf h
    exact ⟨confs, by simpa [confDefault] using hc, confList_length 0 ws confs hc, hval⟩

lemma oaiConfs_eval :
    normalize_data (some oaiConfs) .OpenAI =
      some ⟨.str "x", 0, 3, 3, 70, 1, 3⟩ := by
  simp [normalize_data, oaiConfs, extract, openaiSec, pyTruthy, pyGetD,
    lookupField, pyIndexFirst, pyIndexLast, pyElems, pyLen, pyNum, confList,
    Except.toOption, Bind.bind, Except.bind, Pure.pure, Except.pure]
  norm_num

lemma oaiConfs_words :
    wordsOf oaiConfs .OpenAI =
      .ok [.obj [("start", .num 0), ("end", .num 1), ("confidence", .num (1/2))],
           .obj [("start", .num 1), ("end", .num 2), ("confidence", .num (7/10))],
           .obj [("start", .num 2), ("end", .num 3), ("confidence", .num (9/10))]] := by
  simp [wordsOf, oaiConfs, pyGetD, lookupField, Bind.bind, Except.bind,
    Pure.pure, Except.pure]

/-- Witness for C9: word confidences 0.5, 0.7 and 0.9 give confidence 70,
unchanged by the 2-decimal rounding of the reporting layer. -/
theorem C9_confidence_mean_witness :
    normalize_data (some oaiConfs) .OpenAI =
        some ⟨.str "x", 0, 3, 3, 70, 1, 3⟩ ∧
      (70 : ℚ) = (1/2 + 7/10 + 9/10) / 3 * 100 ∧ round2 70 = 70 := by
  refine ⟨oaiConfs_eval, ?_, ?_⟩
  · have h := (C9_confidence_mean .OpenAI oaiConfs ⟨.str "x", 0, 3, 3, 70, 1, 3⟩
      _ oaiConfs_eval oaiConfs_words).2 (by simp)
    obtain ⟨confs, hc, hlen, hval⟩ := h
    have hcv : confs = [1/2, 7/10, 9/10] := by
      have he : confList (confDefault .OpenAI)
          [.obj [("start", .num 0), ("end", .num 1), ("confidence", .num (1/2))],
           .obj [("start", .num 1), ("end", .num 2), ("confidence", .num (7/10))],
           .obj [("start", .num 2), ("end", .num 3), ("confidence", .num (9/10))]] =
          .ok [1/2, 7/10, 9/10] := by
        simp [confList, confDefault, pyGetD, lookupField, pyNum,
          Bind.bind, Except.bind, Pure.pure, Except.pure]
      rw [he] at hc
      exact (Except.ok.inj hc).symm
    subst hcv
    have h70 : ([1/2, 7/10, 9/10] : List ℚ).sum /
        ((([1/2, 7/10, 9/10] : List ℚ).length : ℕ) : ℚ) * 100 =
        (1/2 + 7/10 + 9/10) / 3 * 100 := by norm_num
    rw [← h70]
    exact hval
  · simp [round2, roundHalfEven]
    norm_num

lemma setInsert_nodup (acc : List JScalar) (v : JScalar) (h : acc.Nodup) :
    (setInsert acc v).Nodup := by
  unfold setInsert
  split
  · exact h
  · rename_i hv
    simp [List.nodup_append, h, hv]

lemma setInsert_toFinset (acc : List JScalar) (v : JScalar) :
    (setInsert acc v).toFinset = insert v acc.toFinset := by
  unfold setInsert
  split
  · rename_i hv
    have : v ∈ acc.toFinset := List.mem_toFinset.mpr hv
    rw [Finset.insert_eq_self.mpr this]
  · simp only [List.toFinset_append, List.toFinset_cons, List.toFinset_nil]
    rw [Finset.insert_eq]
    ext x
    simp
    tauto

lemma foldl_setInsert_spec (vs : List JScalar) :
    ∀ acc, acc.Nodup →
      (vs.foldl setInsert acc).Nodup ∧
        (vs.foldl setInsert acc).toFinset = acc.toFinset ∪ vs.toFinset := by
  induction vs with
  | nil => intro acc h; simp [h]
  | cons v vs ih =>
    intro acc h
    simp only [List.foldl_cons]
    obtain ⟨g1, g2⟩ := ih (setInsert acc v) (setInsert_nodup acc v h)
    refine ⟨g1, ?_⟩
    rw [g2, setInsert_toFinset]
    ext x
    simp only [Finset.mem_union, Finset.mem_insert, List.toFinset_cons, List.mem_toFinset]
    tauto

lemma foldl_setInsert_length (vs : List JScalar) :
    (vs.foldl setInsert []).length = vs.toFinset.card := by
  obtain ⟨g1, g2⟩ := foldl_setInsert_spec vs [] List.nodup_nil
  rw [← List.toFinset_card_of_nodup g1, g2]
  simp

lemma foldl_setInsert_eq_nil (vs : List JScalar) :
    vs.foldl setInsert [] = [] ↔ vs = [] := by
  constructor
  · intro h
    obtain ⟨g1, g2⟩ := foldl_setInsert_spec vs [] List.nodup_nil
    rw [h] at g2
    simp at g2
    exact List.toFinset_eq_empty_iff vs |>.mp g2.symm
  · intro h
    subst h
    rfl

lemma dgSpeakersAux_values (ws : List JVal) :
    ∀ acc, dgSpeakersAux ws acc =
      (dgSpeakerValues ws).map (fun vs => vs.foldl setInsert acc) := by
  induction ws with
  | nil => intro acc; simp [dgSpeakersAux, dgSpeakerValues, Except.map]
  | cons w ws ih =>
    intro acc
    simp only [dgSpeakersAux, dgSpeakerValues, Bind.bind, Except.bind]
    cases hb : pyHasKeyish "speaker" w with
    | error e => simp [hb, Except.map]
    | ok b =>
      cases b with
      | false => simp [hb, ih acc]
      | true =>
        simp only [hb, if_true]
        cases hv : pyGetNone w "speaker" with
        | error e => simp [hv, Except.map]
        | ok v =>
          simp only [hv]
          cases hs : pyHashable v with
          | error e => simp [hs, Except.map]
          | ok s =>
            simp only [hs]
            rw [ih (setInsert acc s)]
            cases hvs : dgSpeakerValues ws with
            | error e => simp [hvs, Except.map]
            | ok vs => simp [hvs, Except.map, Pure.pure, Except.pure]

lemma aaiSpeakersAux_values (ws : List JVal) :
    ∀ acc, aaiSpeakersAux ws acc =
      (aaiSpeakerValues ws).map (fun vs => vs.foldl setInsert acc) := by
  induction ws with
  | nil => intro acc; simp [aaiSpeakersAux, aaiSpeakerValues, Except.map]
  | cons w ws ih =>
    intro acc
    simp only [aaiSpeakersAux, aaiSpeakerValues, Bind.bind, Except.bind]
    cases hv : pyGetNone w "speaker" with
    | error e => simp [hv, Except.map]
    | ok v =>
      cases hn : v.isNull with
      | true => simp [hv, hn, ih acc]
      | false =>
        simp only [hv, hn, Bool.false_eq_true, if_false]
        cases hs : pyHashable v with
        | error e => simp [hs, Except.map]
        | ok s =>
          simp only [hs]
          rw [ih (setInsert acc s)]
          cases hvs : aaiSpeakerValues ws with
          | error e => simp [hvs, Except.map]
          | ok vs => simp [hvs, Except.map, Pure.pure, Except.pure]

/-- C1 (amended): speakers per provider as the code computes them.  OpenAI:
always 1 (line 51).  Deepgram: over words that carry a "speaker" key, the
number of distinct speaker values with null values counted (line 61), 1 when
that set is empty, and 0 when the word list is empty.  AssemblyAI: the
number of distinct non-null speaker values (line 74), 1 when none, 0 when
the word list is empty. -/
theorem C1_amended_speakers (d : JVal) :
    (∀ n, normalize_data (some d) .OpenAI = some n → n.speakers = 1) ∧
      (∀ n ws vs, normalize_data (some d) .Deepgram = some n →
        wordsOf d .Deepgram = .ok ws → dgSpeakerValues ws = .ok vs →
        (ws = [] → n.speakers = 0) ∧
          (ws ≠ [] → n.speakers = if vs = [] then 1 else vs.toFinset.card)) ∧
      (∀ n ws vs, normalize_data (some d) .AssemblyAI = some n →
        wordsOf d .AssemblyAI = .ok ws → aaiSpeakerValues ws = .ok vs →
        (ws = [] → n.speakers = 0) ∧
          (ws ≠ [] → n.speakers = if vs = [] then 1 else vs.toFinset.card)) := by
  refine ⟨?_, ?_, ?_⟩
  · intro n hn
    have hex := (normalize_data_some d .OpenAI n hn).2
    simp only [extract, bind_ok, pure_ok] at hex
    obtain ⟨text, _, words, _, sec, _, wc, _, hpure⟩ := hex
    subst hpure
    rfl
  · intro n ws vs hn hws hvs
    have hex := (normalize_data_some d .Deepgram n hn).2
    obtain ⟨_, _, hemp, _, _, hspk⟩ := extract_deepgram_ok d n ws hex hws
    refine ⟨fun h => (hemp h).2.2.2, fun h => ?_⟩
    obtain ⟨sp, hsp, hval⟩ := hspk h
    rw [dgSpeakersAux_values ws [], hvs] at hsp
    simp only [Except.map] at hsp
    have hspeq : sp = vs.foldl setInsert [] := (Except.ok.inj hsp).symm
    rw [hval, hspeq]
    by_cases hv : vs = []
    · subst hv
      simp
    · have hne : vs.foldl setInsert [] ≠ [] :=
        fun hc => hv ((foldl_setInsert_eq_nil vs).mp hc)
      rw [if_neg hne, if_neg hv]
      exact foldl_setInsert_length vs
  · intro n ws vs hn hws hvs
    have hex := (normalize_data_some d .AssemblyAI n hn).2
    obtain ⟨_, _, hemp, _, _, hspk⟩ := extract_assembly_ok d n ws hex hws
    refine ⟨fun h => (hemp h).2.2.2, fun h => ?_⟩
    obtain ⟨sp, hsp, hval⟩ := hspk h
    rw [aaiSpeakersAux_values ws [], hvs] at hsp
    simp only [Except.map] at hsp
    have hspeq : sp = vs.foldl setInsert [] := (Except.ok.inj hsp).symm
    rw [hval, hspeq]
    by_cases hv : vs = []
    · subst hv
      simp
    · have hne : vs.foldl setInsert [] ≠ [] :=
        fun hc => hv ((foldl_setInsert_eq_nil vs).mp hc)
      rw [if_neg hne, if_neg hv]
      exact foldl_setInsert_length vs

lemma dgNullZero_eval :
    normalize_data (some dgNullZero) .Deepgram =
      some ⟨.str "hi", 0, 2, 2, 100, 2, 2⟩ := by
  simp [normalize_data, dgNullZero, extract, dgAlt, dgSec, pyTruthy, pyGetD,
    pyGetNone, lookupField, pyIndexFirst, pyIndexLast, pyElems, pyLen, pyNum,
    confList, dgSpeakersAux, pyHasKeyish, hasField, pyHashable, setInsert,
    JVal.isNull, pyMean, Except.toOption, Bind.bind, Except.bind, Pure.pure,
    Except.pure]

lemma dgNullZero_words :
    wordsOf dgNullZero .Deepgram =
      .ok [.obj [("speaker", .null), ("start", .num 0), ("end", .num 1),
                 ("confidence", .num 1)],
           .obj [("speaker", .num 0), ("start", .num 1), ("end", .num 2),
                 ("confidence", .num 1)]] := by
  simp [wordsOf, dgNullZero, dgAlt, pyGetD, lookupField, pyIndexFirst,
    Bind.bind, Except.bind, Pure.pure, Except.pure]

lemma dgNullZero_values :
    dgSpeakerValues
        [.obj [("speaker", .null), ("start", .num 0), ("end", .num 1),
               ("confidence", .num 1)],
         .obj [("speaker", .num 0), ("start", .num 1), ("end", .num 2),
               ("confidence", .num 1)]] = .ok [.null, .num 0] := by
  simp [dgSpeakerValues, pyHasKeyish, hasField, pyGetNone, lookupField,
    pyHashable, Bind.bind, Except.bind, Pure.pure, Except.pure]

lemma oaiOneWord_eval :
    normalize_data (some oaiOneWord) .OpenAI =
      some ⟨.str "hello", 1, 2, 1, 100, 1, 1⟩ := by
  simp [normalize_data, oaiOneWord, extract, openaiSec, pyTruthy, pyGetD,
    lookupField, pyIndexFirst, pyIndexLast, pyElems, pyLen, pyNum, confList,
    Except.toOption, Bind.bind, Except.bind, Pure.pure, Except.pure]
  norm_num

lemma aaiMillis_values :
    aaiSpeakerValues
        [.obj [("start", .num 1000), ("end", .num 2000),
               ("confidence", .num (9/10))]] = .ok [] := by
  simp [aaiSpeakerValues, pyGetNone, lookupField, JVal.isNull,
    Bind.bind, Except.bind, Pure.pure, Except.pure]

/-- C1 counterexample: the claim says a successfully normalized Deepgram
response has speakers equal to the number of distinct non-null speaker
values.  For two words with speaker values null and 0 the distinct non-null
values number 1 (the set containing only 0), but line 61 keeps the null,
so the code produces speakers = 2.  (`aaiSpeakerValues` computes exactly
the non-null speaker values of a word list.) -/
theorem C1_cex_deepgram_null_speaker :
    normalize_data (some dgNullZero) .Deepgram =
        some ⟨.str "hi", 0, 2, 2, 100, 2, 2⟩ ∧
      aaiSpeakerValues
          [.obj [("speaker", .null), ("start", .num 0), ("end", .num 1),
                 ("confidence", .num 1)],
           .obj [("speaker", .num 0), ("start", .num 1), ("end", .num 2),
                 ("confidence", .num 1)]] = .ok [.num 0] ∧
      ([JScalar.num 0] : List JScalar).toFinset.card = 1 ∧ (2 : ℕ) ≠ 1 := by
  refine ⟨dgNullZero_eval, ?_, by simp, by omega⟩
  simp [aaiSpeakerValues, pyGetNone, lookupField, JVal.isNull, pyHashable,
    Bind.bind, Except.bind, Pure.pure, Except.pure]

/-- Witness for the amended C1, one instance per provider: OpenAI always 1;
Deepgram with speaker values null and 0 gives 2 distinct values; AssemblyAI
with no speaker keys falls back to 1. -/
theorem C1_amended_speakers_witness :
    (⟨.str "hello", 1, 2, 1, 100, 1, 1⟩ : NormalizedTranscript).speakers = 1 ∧
      (⟨.str "hi", 0, 2, 2, 100, 2, 2⟩ : NormalizedTranscript).speakers =
        (if ([JScalar.null, JScalar.num 0] : List JScalar) = [] then 1
         else ([JScalar.null, JScalar.num 0] : List JScalar).toFinset.card) ∧
      (⟨.str "ok", 1, 2, 1, 90, 1, 1⟩ : NormalizedTranscript).speakers =
        (if ([] : List JScalar) = [] then 1
         else ([] : List JScalar).toFinset.card) := by
  refine ⟨(C1_amended_speakers oaiOneWord).1 _ oaiOneWord_eval, ?_, ?_⟩
  · exact ((C1_amended_speakers dgNullZero).2.1 _ _ _ dgNullZero_eval
      dgNullZero_words dgNullZero_values).2 (by simp)
  · exact ((C1_amended_speakers aaiMillis).2.2 _ _ _ aaiMillis_eval
      aaiMillis_words aaiMillis_values).2 (by simp)

lemma allRows_length :
    ∀ (ids : List String) (loads : String → Provider → Option JVal)
      (rows : List ComparisonRow),
      allRows ids loads = .ok rows → rows.length = ids.length := by
  intro ids
  induction ids with
  | nil =>
    intro loads rows h
    simp only [allRows, List.mapM_nil, pure_ok] at h
    subst h
    rfl
  | cons i ids ih =>
    intro loads rows h
    simp only [allRows, List.mapM_cons, bind_ok, pure_ok] at h
    obtain ⟨r, hr, rs, hrs, heq⟩ := h
    subst heq
    simp [ih loads rs hrs]

lemma allRows_total :
    ∀ (ids : List String) (loads : String → Provider → Option JVal),
      (∀ i ∈ ids, ∃ r, processId i (loads i) = .ok r) →
      ∃ rows, allRows ids loads = .ok rows ∧ rows.length = ids.length := by
  intro ids
  induction ids with
  | nil => intro loads _; exact ⟨[], rfl, rfl⟩
  | cons i ids ih =>
    intro loads hall
    obtain ⟨r, hr⟩ := hall i (List.mem_cons_self i ids)
    obtain ⟨rs, hrs, hlen⟩ := ih loads (fun j hj => hall j (List.mem_cons_of_mem _ hj))
    refine ⟨r :: rs, ?_, by simp [hlen]⟩
    simp only [allRows, List.mapM_cons] at hrs ⊢
    rw [hr]
    simp only [Bind.bind, Except.bind]
    rw [hrs]
    rfl

/-- C7: a null normalized transcript for a provider degrades exactly that
provider's row fields: word count and confidence 0, every similarity
involving the provider 0, every start-time delta involving it `None`, and
its speaker count 0 (the table has Deepgram and AssemblyAI speaker columns
only); and the batch emits one row per identifier whenever each identifier
is processable, never aborting on a missing provider. -/
theorem C7_null_provider_degrades :
    (∀ a dg aai row, buildRow a none dg aai = .ok row →
      row.OAI_Words = 0 ∧ row.OAI_Conf = 0 ∧ row.Sim_OAI_vs_DG = 0 ∧
        row.Sim_OAI_vs_AAI = 0 ∧ row.Start_Diff_OAI_DG = none) ∧
      (∀ a oai aai row, buildRow a oai none aai = .ok row →
        row.DG_Words = 0 ∧ row.DG_Conf = 0 ∧ row.Sim_OAI_vs_DG = 0 ∧
          row.Sim_DG_vs_AAI = 0 ∧ row.Start_Diff_OAI_DG = none ∧
          row.Start_Diff_DG_AAI = none ∧ row.DG_Speakers = 0) ∧
      (∀ a oai dg row, buildRow a oai dg none = .ok row →
        row.AAI_Words = 0 ∧ row.AAI_Conf = 0 ∧ row.Sim_OAI_vs_AAI = 0 ∧
          row.Sim_DG_vs_AAI = 0 ∧ row.Start_Diff_DG_AAI = none ∧
          row.AAI_Speakers = 0) ∧
      (∀ ids loads, (∀ i ∈ ids, ∃ r, processId i (loads i) = .ok r) →
        ∃ rows, allRows ids loads = .ok rows ∧ rows.length = ids.length) := by
  have simL : ∀ y, simCell none y = pure 0 := fun y => by cases y <;> rfl
  have simR : ∀ x, simCell x none = pure 0 := fun x => by cases x <;> rfl
  refine ⟨?_, ?_, ?_, allRows_total⟩
  · intro a dg aai row hok
    simp only [buildRow, bind_ok, pure_ok] at hok
    obtain ⟨s1, h1, s2, h2, s3, h3, hpure⟩ := hok
    subst hpure
    rw [simL] at h1 h2
    simp only [pure_ok] at h1 h2
    exact ⟨rfl, rfl, h1.symm, h2.symm, rfl⟩
  · intro a oai aai row hok
    simp only [buildRow, bind_ok, pure_ok] at hok
    obtain ⟨s1, h1, s2, h2, s3, h3, hpure⟩ := hok
    subst hpure
    rw [simR] at h1
    rw [simL] at h3
    simp only [pure_ok] at h1 h3
    refine ⟨rfl, rfl, h1.symm, h3.symm, ?_, rfl, rfl⟩
    cases oai <;> rfl
  · intro a oai dg row hok
    simp only [buildRow, bind_ok, pure_ok] at hok
    obtain ⟨s1, h1, s2, h2, s3, h3, hpure⟩ := hok
    subst hpure
    rw [simR] at h2 h3
    simp only [pure_ok] at h2 h3
    refine ⟨rfl, rfl, h2.symm, h3.symm, ?_, rfl⟩
    cases dg <;> rfl

/-- Witness for C7: all three providers missing for identifier "1" gives a
fully degraded row, and the one-identifier batch still emits exactly one
row. -/
theorem C7_null_provider_degrades_witness :
    (⟨"1", 0, 0, 0, 0, 0, 0, 0, 0, 0, none, none, 0, 0⟩ : ComparisonRow).OAI_Words = 0 ∧
      (⟨"1", 0, 0, 0, 0, 0, 0, 0, 0, 0, none, none, 0, 0⟩ : ComparisonRow).DG_Speakers = 0 ∧
      (⟨"1", 0, 0, 0, 0, 0, 0, 0, 0, 0, none, none, 0, 0⟩ : ComparisonRow).Start_Diff_DG_AAI
        = none ∧
      allRows ["1"] (fun _ _ => none) =
        .ok [⟨"1", 0, 0, 0, 0, 0, 0, 0, 0, 0, none, none, 0, 0⟩] :=
  ⟨(C7_null_provider_degrades.1 "1" none none _ rfl).1,
   (C7_null_provider_degrades.2.1 "1" none none _ rfl).2.2.2.2.2.2,
   (C7_null_provider_degrades.2.2.1 "1" none none _ rfl).2.2.2.2.1,
   rfl⟩

/-- C8: the console summary of lines 169 and 170 is the arithmetic mean of
the Deepgram-versus-AssemblyAI similarity column over all rows of the
table, and the arithmetic mean of the Deepgram-versus-AssemblyAI start-time
delta column over all rows (all assumed present; pandas skips missing
deltas). -/
theorem C8_summary_means (rows : List ComparisonRow) (ds : List ℚ)
    (hne : rows ≠ [])
    (hds : rows.map ComparisonRow.Start_Diff_DG_AAI = ds.map some) :
    (printedSummary rows).1 =
        some ((rows.map ComparisonRow.Sim_DG_vs_AAI).sum / (rows.length : ℚ)) ∧
      (printedSummary rows).2 = some (ds.sum / (ds.length : ℚ)) := by
  have hlen : rows.length ≠ 0 := fun h => hne (List.length_eq_zero.mp h)
  constructor
  · simp only [printedSummary, colMeanQ, List.length_map]
    rw [if_neg hlen]
  · simp only [printedSummary, colMeanOpt, hds]
    have hfm : (ds.map some).filterMap id = ds := by
      simp
    rw [hfm]
    have hdlen : ds.length ≠ 0 := by
      have hle : rows.length = ds.length := by
        have := congrArg List.length hds
        simpa using this
      omega
    rw [if_neg hdlen]

/-- Witness for C8: a single row with similarity 50 and delta 2 prints the
summary (50, 2). -/
theorem C8_summary_means_witness :
    printedSummary [⟨"1", 0, 0, 0, 0, 0, 0, 0, 0, 50, none, some 2, 0, 0⟩] =
      (some 50, some 2) := by
  obtain ⟨h1, h2⟩ := C8_summary_means
    [⟨"1", 0, 0, 0, 0, 0, 0, 0, 0, 50, none, some 2, 0, 0⟩] [2] (by simp) rfl
  exact Prod.ext (by rw [h1]; norm_num) (by rw [h2]; norm_num)
